import Mathlib

/-!
# gpc parser: grammar loading and naive backtracking derivation

A shallow embedding of `parser/parser.go` (package `parser` of `JureBevc/gpc`)
and the properties of its specification that were checked against it.

Conventions of the embedding.

* Go strings are Lean `String`s (sequences of Unicode code points; the source
  never inspects bytes of an invalid encoding).
* Go slices are `List`s; a nil slice and an empty slice are both `[]`.
* `int` token indices are `Nat`s: the only entry point starts at `0` and the
  code only ever adds one to an index.
* `map[string][][]GrammarSymbol` is an association list with at most one
  binding per key that is reachable by lookup.
* The grammar file is its text, a `String`; the scanner of `loadGrammarFile` cuts
  it into lines and stops at a line that fills its buffer of 64 KiB.
* A Go function that can panic, or that can recurse forever, returns a `Run`:
  the recursion of `naiveParseRecursive` is bounded by a fuel argument that
  counts the depth of nested calls.
-/

namespace Gpc

/-! ## Data model -/

/-- Modelled from the spec: `tokenizer.Token` (package `tokenizer` is not part of
the sources at hand). A token has a `name` (its terminal category) and a `value`
(the literal text); the parser reads exactly these two fields. -/
structure Token where
  Name : String
  Value : String
deriving DecidableEq, Repr

/-- Modelled from the spec: `tokenizer.TokenDefinition` (package `tokenizer` is not
part of the sources at hand): a collection item `{name, pattern}` of which only
`name` is read by the parser. -/
structure TokenDefinition where
  Name : String
  Pattern : String
deriving DecidableEq, Repr

/-- The struct `GrammarSymbol`, with the fields `Name string` and `IsTerminal bool`. -/
structure GrammarSymbol where
  Name : String
  IsTerminal : Bool
deriving DecidableEq, Repr

/-- The struct `ParseNode`, with the fields `Name string`, `Value string` and
`IsTerminal bool`. -/
structure ParseNode where
  Name : String
  Value : String
  IsTerminal : Bool
deriving DecidableEq, Repr

/-- Modelled from the spec: `util.TreeNode[T]` (package `util` is not part of the
sources at hand): an ordered, rooted, n-ary tree in which each node owns a value
and the list of its children. -/
inductive TreeNode (α : Type) where
  | mk (Value : α) (Children : List (TreeNode α)) : TreeNode α

namespace TreeNode

/-- Field `Value` of a tree node. -/
def Value {α : Type} : TreeNode α → α
  | mk v _ => v

/-- Field `Children` of a tree node. -/
def Children {α : Type} : TreeNode α → List (TreeNode α)
  | mk _ cs => cs

end TreeNode

/-- The type `GrammarRules`, a `map[string][][]GrammarSymbol`: maps a non-terminal name
to its list of rules, every rule being a list of symbols. -/
abbrev GrammarRules := List (String × List (List GrammarSymbol))

namespace GrammarRules

/-- Map read `grammar[key]`: the value bound to `key`, the nil slice when the key
is absent. -/
def get : GrammarRules → String → List (List GrammarSymbol)
  | [], _ => []
  | (k, v) :: rest, key => if k = key then v else get rest key

/-- The comma-ok read `_, ok := grammar[key]`. -/
def contains : GrammarRules → String → Bool
  | [], _ => false
  | (k, _) :: rest, key => if k = key then true else contains rest key

/-- Map write `grammar[key] = value`: replaces the binding of `key` when there is
one and adds a binding otherwise. -/
def set : GrammarRules → String → List (List GrammarSymbol) → GrammarRules
  | [], key, value => [(key, value)]
  | (k, v) :: rest, key, value =>
    if k = key then (k, value) :: rest else (k, v) :: set rest key value

/-- The keys of the map. -/
def keys (g : GrammarRules) : List String := g.map Prod.fst

end GrammarRules

/-! ## Outcomes of a run -/

/-- The two ways in which the parser aborts: the Go runtime panic of a slice
index out of range, and a `log.Panicf` / `log.Panicln` with its message. -/
inductive Panic where
  | indexOutOfRange (index length : Nat) : Panic
  | logPanic (message : String) : Panic
deriving DecidableEq, Repr

/-- Outcome of running a function under a fuel bound: the bound was hit before
the function returned, the function panicked, or it returned a value. -/
inductive Run (α : Type) where
  | outOfFuel : Run α
  | panic (p : Panic) : Run α
  | ret (a : α) : Run α

/-! ## The derivation engine -/

/-- The result type of `naiveParseRecursive`: `(*util.TreeNode[ParseNode], int)`,
a nil pointer being `none`. -/
abbrev ParseResult := Option (TreeNode ParseNode) × Nat

/-- The loop over the symbols of one rule (`for _, childSymbol := range rule`).
`call` is the recursive call of `naiveParseRecursive` on a child symbol. The loop
state is `children` and `childTokenIndex`; the result adds `parsedAllChildren`.
A nil child breaks out of the loop with `parsedAllChildren = false`, after
`childTokenIndex` has been assigned the index returned by that child. -/
def parseChildren (call : GrammarSymbol → Nat → Run ParseResult) :
    List GrammarSymbol → List (TreeNode ParseNode) → Nat →
      Run (Bool × List (TreeNode ParseNode) × Nat)
  | [], children, childTokenIndex => .ret (true, children, childTokenIndex)
  | childSymbol :: rest, children, childTokenIndex =>
    match call childSymbol childTokenIndex with
    | .outOfFuel => .outOfFuel
    | .panic p => .panic p
    | .ret (none, childTokenIndex') => .ret (false, children, childTokenIndex')
    | .ret (some childNode, childTokenIndex') =>
      parseChildren call rest (children ++ [childNode]) childTokenIndex'

/-- The loop over the rules of a non-terminal (`for _, rule := range rules`) and
the final `return nil, tokenIndex`. -/
def parseRules (call : GrammarSymbol → Nat → Run ParseResult) (programTokens : List Token)
    (currentSymbol startSymbol : GrammarSymbol) (tokenIndex : Nat) :
    List (List GrammarSymbol) → Run ParseResult
  | [] => .ret (none, tokenIndex)
  | rule :: rest =>
    match parseChildren call rule [] tokenIndex with
    | .outOfFuel => .outOfFuel
    | .panic p => .panic p
    | .ret (parsedAllChildren, children, childTokenIndex) =>
      -- Start symbol must also match end of file
      let parsedAllChildren :=
        if parsedAllChildren && currentSymbol.Name == startSymbol.Name then
          if childTokenIndex != programTokens.length then false else parsedAllChildren
        else parsedAllChildren
      if parsedAllChildren then
        .ret (some (.mk { Name := currentSymbol.Name, Value := currentSymbol.Name,
                          IsTerminal := false } children), childTokenIndex)
      else
        parseRules call programTokens currentSymbol startSymbol tokenIndex rest

/-- The function `naiveParseRecursive`. The token at `tokenIndex` is read first, for terminals
and non-terminals alike; reading past the end of the slice is the runtime panic.
`fuel` bounds the depth of the recursion. -/
def naiveParseRecursive (fuel : Nat) (programTokens : List Token) (grammar : GrammarRules)
    (currentSymbol startSymbol : GrammarSymbol) (tokenIndex : Nat) : Run ParseResult :=
  match fuel with
  | 0 => .outOfFuel
  | fuel + 1 =>
    match programTokens[tokenIndex]? with
    | none => .panic (.indexOutOfRange tokenIndex programTokens.length)
    | some currentToken =>
      if currentSymbol.IsTerminal then
        if currentSymbol.Name ≠ currentToken.Name then
          .ret (none, tokenIndex)
        else
          .ret (some (.mk { Name := currentToken.Name, Value := currentToken.Value,
                            IsTerminal := true } []), tokenIndex + 1)
      else
        parseRules
          (fun childSymbol childTokenIndex =>
            naiveParseRecursive fuel programTokens grammar childSymbol startSymbol childTokenIndex)
          programTokens currentSymbol startSymbol tokenIndex (grammar.get currentSymbol.Name)

/-- The function `naiveParse`: derive the first symbol from index 0, discard the index, and
panic with `Could not create parse tree` when the tree is nil. -/
def naiveParse (fuel : Nat) (programTokens : List Token) (grammar : GrammarRules)
    (firstSymbol : GrammarSymbol) : Run (TreeNode ParseNode) :=
  match naiveParseRecursive fuel programTokens grammar firstSymbol firstSymbol 0 with
  | .outOfFuel => .outOfFuel
  | .panic p => .panic p
  | .ret (none, _) => .panic (.logPanic "Could not create parse tree\n")
  | .ret (some tree, _) => .ret tree

/-! ## Terminal nodes of a tree -/

mutual
/-- The terminal nodes (`IsTerminal = true`) of a tree, read left to right. -/
def terminalNodes : TreeNode ParseNode → List ParseNode
  | .mk v cs => if v.IsTerminal then v :: terminalNodesList cs else terminalNodesList cs
/-- The terminal nodes of a list of trees, read left to right. -/
def terminalNodesList : List (TreeNode ParseNode) → List ParseNode
  | [] => []
  | c :: cs => terminalNodes c ++ terminalNodesList cs
end

/-- The terminal node that the parser builds for a token. -/
def tokenNode (t : Token) : ParseNode :=
  { Name := t.Name, Value := t.Value, IsTerminal := true }

/-- The terminal nodes spelled by the tokens `tokens[i..j)`. -/
def tokenSlice (programTokens : List Token) (i j : Nat) : List ParseNode :=
  ((programTokens.drop i).take (j - i)).map tokenNode

/-! ## The derivation of a non-terminal in the words of the specification -/

/-- What a call hands to its caller as a derived child: the node and the next
index when it returned a node, nothing otherwise. -/
def Run.derived : Run ParseResult → Option (TreeNode ParseNode × Nat)
  | .ret (some node, idx) => some (node, idx)
  | _ => none

/-- Specification wording: derive every member symbol of a production in
left-to-right order, each child started at the index returned by the previous
child. The result is the list of children and the index after the last child. -/
def specDeriveAll (child : GrammarSymbol → Nat → Option (TreeNode ParseNode × Nat)) :
    List GrammarSymbol → Nat → Option (List (TreeNode ParseNode) × Nat)
  | [], i => some ([], i)
  | s :: rest, i =>
    match child s i with
    | none => none
    | some (node, k) =>
      match specDeriveAll child rest k with
      | none => none
      | some (cs, j) => some (node :: cs, j)

/-- Specification wording: a production qualifies when its member symbols all
derive and, when the symbol's name equals the start symbol's name, the final index
equals the number of tokens. -/
def specQualifies (child : GrammarSymbol → Nat → Option (TreeNode ParseNode × Nat))
    (len : Nat) (X S : GrammarSymbol) (i : Nat) (rule : List GrammarSymbol) :
    Option (List (TreeNode ParseNode) × Nat) :=
  match specDeriveAll child rule i with
  | none => none
  | some (cs, j) => if X.Name = S.Name ∧ j ≠ len then none else some (cs, j)

/-- Specification wording: the result for a non-terminal `X` at index `i` is that
of the first production, in declared order, that qualifies: a node named `X` with
that production's children and the index after the last child; no node, and the
index `i`, when no production qualifies. -/
def specNonTerminal (child : GrammarSymbol → Nat → Option (TreeNode ParseNode × Nat))
    (len : Nat) (X S : GrammarSymbol) (i : Nat) (rules : List (List GrammarSymbol)) :
    ParseResult :=
  match rules.findSome? (specQualifies child len X S i) with
  | some (cs, j) => (some (.mk { Name := X.Name, Value := X.Name, IsTerminal := false } cs), j)
  | none => (none, i)

/-- Every call made on the member symbols of `rule`, tried from index `i`, returns
(a node or a no-match): none of them panics or exhausts the fuel. The walk stops
at the first child that returns no node, as the code does. -/
def childrenReturn (call : GrammarSymbol → Nat → Run ParseResult) :
    List GrammarSymbol → Nat → Bool
  | [], _ => true
  | s :: rest, i =>
    match call s i with
    | .ret (some _, k) => childrenReturn call rest k
    | .ret (none, _) => true
    | _ => false

/-! ## The grammar loader -/

namespace unicode

/-- The Go library predicate `unicode.IsSpace`: the white space characters are
`\t`, `\n`, `\v`, `\f`, `\r`, the space, U+0085 (NEL), U+00A0 (NBSP) and the
characters of category Z: U+1680, U+2000 to U+200A, U+2028, U+2029, U+202F,
U+205F and U+3000. -/
def IsSpace (c : Char) : Bool :=
  let n := c.toNat
  (0x09 ≤ n && n ≤ 0x0D) || n = 0x20 || n = 0x85 || n = 0xA0 || n = 0x1680 ||
    (0x2000 ≤ n && n ≤ 0x200A) || n = 0x2028 || n = 0x2029 || n = 0x202F ||
    n = 0x205F || n = 0x3000

end unicode

namespace strings

/-- The Go library function `strings.TrimSpace`: the string without its leading
and trailing white space. -/
def TrimSpace (s : String) : String :=
  String.mk (((s.data.dropWhile unicode.IsSpace).reverse.dropWhile unicode.IsSpace).reverse)

/-- Splitting a sequence of characters at every occurrence of `sep`; the pieces
between two adjacent separators, before a leading one and after a trailing one are
empty. -/
def splitChars (sep : Char) : List Char → List (List Char)
  | [] => [[]]
  | c :: cs =>
    if c = sep then [] :: splitChars sep cs
    else
      match splitChars sep cs with
      | [] => [[c]]
      | w :: ws => (c :: w) :: ws

/-- The Go library function `strings.Split` for a separator of one character (the
loader calls it with `" "` only): the substrings between the separators, in order. -/
def Split (s : String) (sep : Char) : List String :=
  (splitChars sep s.data).map String.mk

end strings

namespace bufio

/-- The Go library constant `bufio.MaxScanTokenSize`: the size of the largest buffer
that a default `Scanner` allocates, 64 KiB. -/
def MaxScanTokenSize : Nat := 64 * 1024

/-- The number of bytes of a character in the file (its UTF-8 encoding). -/
def utf8Len (c : Char) : Nat :=
  if c.toNat < 0x80 then 1
  else if c.toNat < 0x800 then 2
  else if c.toNat < 0x10000 then 3
  else 4

/-- The line that `bufio.ScanLines` hands back for the data of a line, given in
reverse: the data without a carriage return at its end (`dropCR`). -/
def lineToken (pending : List Char) : String :=
  match pending with
  | '\r' :: rest => String.mk rest.reverse
  | _ => String.mk pending.reverse

/-- The lines that `for scanner.Scan()` yields, with `bufio.NewScanner(file)` and
the split function `bufio.ScanLines`, from the characters that remain in the file.
`pending` is the data of the line being read, in reverse, and `size` its number of
bytes. A line ends at a line feed or at the end of the file; nothing follows a
final line feed. The scanner holds a line and its line feed in a buffer of at most
`MaxScanTokenSize` bytes: when the data of a line fills it, `Scan` returns false
for good (the error `ErrTooLong`, which `loadGrammarFile` never looks at), and the
loop ends as it does at the end of the file. -/
def scanFrom : List Char → List Char → Nat → List String
  | [], pending, size =>
    if pending.isEmpty then []
    else if MaxScanTokenSize ≤ size then []
    else [lineToken pending]
  | c :: rest, pending, size =>
    if c = '\n' then
      if MaxScanTokenSize ≤ size then []
      else lineToken pending :: scanFrom rest [] 0
    else scanFrom rest (c :: pending) (size + utf8Len c)

/-- The lines that the scanner of `loadGrammarFile` yields for the text of the
grammar file. -/
def Scan (text : String) : List String := scanFrom text.data [] 0

/-- Whether some line of the remaining characters fills the buffer of the
scanner; `size` is the number of bytes of the line being read. -/
def tooLongFrom : List Char → Nat → Bool
  | [], size => decide (MaxScanTokenSize ≤ size)
  | c :: rest, size =>
    if c = '\n' then decide (MaxScanTokenSize ≤ size) || tooLongFrom rest 0
    else tooLongFrom rest (size + utf8Len c)

/-- Whether some line of the text has `MaxScanTokenSize` bytes or more. -/
def tooLong (text : String) : Bool := tooLongFrom text.data 0

end bufio

/-- The function `stringIsTerminal`: is `name` the name of one of the terminal definitions. -/
def stringIsTerminal (name : String) : List TokenDefinition → Bool
  | [] => false
  | definition :: rest => if definition.Name = name then true else stringIsTerminal name rest

/-- The variables of `loadGrammarFile` that live across the iterations of its
reading loop. -/
structure LoadState where
  grammar : GrammarRules
  firstSymbol : GrammarSymbol
  currentNonTerminal : String

/-- The loop `for _, name := range rule` of `loadGrammarFile`: one grammar symbol
for each name of a production line, classified by `stringIsTerminal`. -/
def newRule (allTerminals : List TokenDefinition) : List String → List GrammarSymbol
  | [] => []
  | name :: rest =>
    { Name := name, IsTerminal := stringIsTerminal name allTerminals } ::
      newRule allTerminals rest

/-- The body of the reading loop of `loadGrammarFile`, for one line of the file. -/
def loadLine (allTerminals : List TokenDefinition) (st : LoadState) (text : String) :
    LoadState :=
  let line := strings.TrimSpace text
  if line = "" then
    { st with currentNonTerminal := "" }
  else if st.currentNonTerminal = "" then
    -- New non-terminal entry
    { grammar := st.grammar.set line []
      firstSymbol :=
        if st.firstSymbol.Name = "" then { Name := line, IsTerminal := false }
        else st.firstSymbol
      currentNonTerminal := line }
  else
    -- New rule for current non-terminal
    { st with
      grammar := st.grammar.set st.currentNonTerminal
        (st.grammar.get st.currentNonTerminal ++
          [newRule allTerminals (strings.Split line ' ')]) }

/-- The reading loop of `loadGrammarFile` over the lines that the scanner yields,
from the initial values of its variables. -/
def buildGrammar (lines : List String) (allTerminals : List TokenDefinition) : LoadState :=
  lines.foldl (loadLine allTerminals)
    { grammar := [], firstSymbol := { Name := "", IsTerminal := false },
      currentNonTerminal := "" }

/-- The message of `log.Panicf("Unknown symbol in grammar: %s\n", name)`. -/
def unknownSymbol (name : String) : Panic :=
  .logPanic ("Unknown symbol in grammar: " ++ name ++ "\n")

/-- Validation of the symbols of one rule (`for _, symbol := range rule`): a symbol
passes when its name is a key of the table or the name of a terminal definition;
the first one that does not is the panic. -/
def validateRule (grammar : GrammarRules) (allTerminals : List TokenDefinition) :
    List GrammarSymbol → Except Panic Unit
  | [] => .ok ()
  | symbol :: rest =>
    if grammar.contains symbol.Name then validateRule grammar allTerminals rest
    else if stringIsTerminal symbol.Name allTerminals then
      validateRule grammar allTerminals rest
    else .error (unknownSymbol symbol.Name)

/-- Validation of the rules of one key (`for _, rule := range rules`). -/
def validateRules (grammar : GrammarRules) (allTerminals : List TokenDefinition) :
    List (List GrammarSymbol) → Except Panic Unit
  | [] => .ok ()
  | rule :: rest =>
    match validateRule grammar allTerminals rule with
    | .error e => .error e
    | .ok _ => validateRules grammar allTerminals rest

/-- Validation of the table (`for key := range grammar`), the keys being visited in
the given order. -/
def validateKeys (grammar : GrammarRules) (allTerminals : List TokenDefinition) :
    List String → Except Panic Unit
  | [] => .ok ()
  | key :: rest =>
    match validateRules grammar allTerminals (grammar.get key) with
    | .error e => .error e
    | .ok _ => validateKeys grammar allTerminals rest

/-- The function `loadGrammarFile`. The model starts from the text of the opened
grammar file, which the scanner cuts into lines. Go visits the keys of a map in an
order of its own choosing: `rangeOrder` is the order in which
`for key := range grammar` visits the keys of the table. -/
def loadGrammarFile (text : String) (allTerminals : List TokenDefinition)
    (rangeOrder : GrammarRules → List String) : Except Panic (GrammarRules × GrammarSymbol) :=
  let st := buildGrammar (bufio.Scan text) allTerminals
  match validateKeys st.grammar allTerminals (rangeOrder st.grammar) with
  | .error e => .error e
  | .ok _ => .ok (st.grammar, st.firstSymbol)

/-- The function `Parse`, the only caller of `loadGrammarFile` and of `naiveParse`:
load the grammar, then derive the tokens from its start symbol. The model starts
from the text of the grammar file. -/
def Parse (fuel : Nat) (terminals : List TokenDefinition) (programTokens : List Token)
    (grammarText : String) (rangeOrder : GrammarRules → List String) :
    Run (TreeNode ParseNode) :=
  match loadGrammarFile grammarText terminals rangeOrder with
  | .error p => .panic p
  | .ok (grammar, firstSymbol) => naiveParse fuel programTokens grammar firstSymbol

/-! ## The grammar text in the words of the specification -/

/-- Specification wording: the lines of a grammar text, from the characters that
remain. A line ends at a line feed or at the end of the text, a carriage return
before the line feed is not part of it, and nothing follows a final line feed.
`pending` is the line being read, in reverse. -/
def specLinesFrom : List Char → List Char → List String
  | [], pending => if pending.isEmpty then [] else [bufio.lineToken pending]
  | c :: rest, pending =>
    if c = '\n' then bufio.lineToken pending :: specLinesFrom rest []
    else specLinesFrom rest (c :: pending)

/-- Specification wording: the lines of a grammar text. -/
def specTextLines (text : String) : List String := specLinesFrom text.data []

/-- Specification wording: the blocks of a grammar text are the maximal runs of
non-blank lines. `run` is the run being read. -/
def specBlocksAux : List String → List String → List (List String)
  | [], [] => []
  | [], l :: run => [l :: run]
  | line :: rest, run =>
    if line = "" then
      match run with
      | [] => specBlocksAux rest []
      | l :: run => (l :: run) :: specBlocksAux rest []
    else specBlocksAux rest (run ++ [line])

/-- Specification wording: the blocks of a grammar text, given by its trimmed
lines. -/
def specBlocks (trimmedLines : List String) : List (List String) :=
  specBlocksAux trimmedLines []

/-- Specification wording: the blocks of a grammar text, each line trimmed. -/
def specTextBlocks (text : String) : List (List String) :=
  specBlocks ((specTextLines text).map strings.TrimSpace)

/-- Specification wording: the names of a production line are its pieces between
single spaces. -/
def specProductionNames (line : String) : List String := strings.Split line ' '

/-- Specification wording: what one block does to the table. The first line names
a non-terminal, and every subsequent line is one alternative production for it,
bound to that name in place of whatever the name was bound to. -/
def specAddBlock (allTerminals : List TokenDefinition) (g : GrammarRules) :
    List String → GrammarRules
  | [] => g
  | header :: rest =>
    g.set header (rest.map (fun line => newRule allTerminals (specProductionNames line)))

/-! ## Well-formed trees in the words of the specification -/

mutual
/-- Specification wording: a tree is well formed for a rule table when each node is
either a terminal node with no children, or a non-terminal node whose value equals
its name and whose non-empty list of children has, in order, exactly the names of
the symbols of one production stored in the table under the node's name. -/
def wellFormed (g : GrammarRules) : TreeNode ParseNode → Bool
  | .mk v cs =>
    if v.IsTerminal then cs.isEmpty
    else
      decide (v.Value = v.Name) && !cs.isEmpty &&
        (g.get v.Name).any
          (fun rule => decide (rule.map GrammarSymbol.Name = cs.map (fun c => c.Value.Name))) &&
        wellFormedList g cs
/-- Specification wording: every tree of the list is well formed. -/
def wellFormedList (g : GrammarRules) : List (TreeNode ParseNode) → Bool
  | [] => true
  | c :: cs => wellFormed g c && wellFormedList g cs
end

/-! ## Scenarios -/

/-- The leaf that the parser builds for a token named `name` with value `value`. -/
def leaf (name value : String) : TreeNode ParseNode :=
  .mk { Name := name, Value := value, IsTerminal := true } []

/-- The node that the parser builds for the non-terminal `name`. -/
def inner (name : String) (children : List (TreeNode ParseNode)) : TreeNode ParseNode :=
  .mk { Name := name, Value := name, IsTerminal := false } children

/-- A terminal grammar symbol. -/
def terminal (name : String) : GrammarSymbol := { Name := name, IsTerminal := true }

/-- A non-terminal grammar symbol. -/
def nonTerminal (name : String) : GrammarSymbol := { Name := name, IsTerminal := false }

/-- Scenario A, grammar: `Start` has the single production `NUM PLUS NUM`. -/
def grammarA : GrammarRules :=
  [("Start", [[terminal "NUM", terminal "PLUS", terminal "NUM"]])]

/-- Scenario A, tokens: `NUM:1 PLUS:+ NUM:2`. -/
def tokensA : List Token := [⟨"NUM", "1"⟩, ⟨"PLUS", "+"⟩, ⟨"NUM", "2"⟩]

/-- Scenario A, expected tree. -/
def treeA : TreeNode ParseNode :=
  inner "Start" [leaf "NUM" "1", leaf "PLUS" "+", leaf "NUM" "2"]

/-- Scenario B, tokens: the short input `NUM:1 PLUS:+`. -/
def tokensB : List Token := [⟨"NUM", "1"⟩, ⟨"PLUS", "+"⟩]

/-- Grammar `X: A B | A`: the longer alternative is declared first. -/
def grammarLongFirst : GrammarRules :=
  [("X", [[terminal "A", terminal "B"], [terminal "A"]])]

/-- Grammar `X: X A | A`: the first production is left recursive. -/
def grammarLeftRec : GrammarRules :=
  [("X", [[nonTerminal "X", terminal "A"], [terminal "A"]])]

/-- The one-token input `A`. -/
def tokensOneA : List Token := [⟨"A", "a"⟩]

/-- The two-token input `A B`. -/
def tokensAB : List Token := [⟨"A", "a"⟩, ⟨"B", "b"⟩]

/-- Grammar `S: A S B | A`, in which the start symbol occurs inside its own
production. -/
def grammarNested : GrammarRules :=
  [("S", [[terminal "A", nonTerminal "S", terminal "B"], [terminal "A"]])]

/-- The input `A A B`. -/
def tokensAAB : List Token := [⟨"A", "a1"⟩, ⟨"A", "a2"⟩, ⟨"B", "b"⟩]

/-- Grammar `S: B S | A`, in which the start symbol ends its own production. -/
def grammarTail : GrammarRules :=
  [("S", [[terminal "B", nonTerminal "S"], [terminal "A"]])]

/-- The input `B A`. -/
def tokensBA : List Token := [⟨"B", "b"⟩, ⟨"A", "a"⟩]

/-- Scenario D, terminal definitions: `A` alone. -/
def terminalsD : List TokenDefinition := [⟨"A", "a"⟩]

/-- A grammar text with two blocks, untrimmed lines and white-space-only lines, in
which the name `A` is both a terminal definition and the header of a block. -/
def linesTwoBlocks : List String := ["  A", "A B ", " \t", "", "B", "\tA  A"]

/-- The terminal definitions `A` and the empty name. -/
def terminalsTwoBlocks : List TokenDefinition := [⟨"A", "a"⟩, ⟨"", "nothing"⟩]

/-- The table that `linesTwoBlocks` builds. -/
def tableTwoBlocks : GrammarRules :=
  [("A", [[terminal "A", nonTerminal "B"]]),
   ("B", [[terminal "A", terminal "", terminal "A"]])]

/-- Grammar `S: X B` and `X: A | A A`: only the second alternative of `X` lets `S`
derive `A A B`. -/
def grammarNoLookAhead : GrammarRules :=
  [("S", [[nonTerminal "X", terminal "B"]]),
   ("X", [[terminal "A"], [terminal "A", terminal "A"]])]

/-- The derivation `S => X B => A A B` of the input `A A B` as a tree. -/
def treeNoLookAhead : TreeNode ParseNode :=
  inner "S" [inner "X" [leaf "A" "a1", leaf "A" "a2"], leaf "B" "b"]

/-- Scenario C, grammar: `Start` has the two alternatives `A` and `A B`, in that
order. -/
def grammarC : GrammarRules :=
  [("Start", [[terminal "A"], [terminal "A", terminal "B"]])]

/-- Scenario C, the tree of the second alternative. -/
def treeC : TreeNode ParseNode := inner "Start" [leaf "A" "a", leaf "B" "b"]

/-- The terminal definitions `A` and `B`. -/
def terminalsAB : List TokenDefinition := [⟨"A", "a"⟩, ⟨"B", "b"⟩]

/-- Scenario A, grammar text. -/
def linesA : List String := ["Start", "NUM PLUS NUM"]

/-- Scenario A, terminal definitions: `NUM` and `PLUS`. -/
def terminalsA : List TokenDefinition := [⟨"NUM", "[0-9]+"⟩, ⟨"PLUS", "[+]"⟩]

/-- Scenario A, grammar text as it stands in the file. -/
def textA : String := "Start\nNUM PLUS NUM\n"

/-- Scenario D, grammar text as it stands in the file. -/
def textD : String := "Start\nA FOO\n"

/-- The text of `linesTwoBlocks`, with a carriage return before one line feed and no
line feed at the end. -/
def textTwoBlocks : String := "  A\nA B \r\n \t\n\nB\n\tA  A"

/-- A line of `n` spaces. -/
def blankLine (n : Nat) : List Char := List.replicate n ' '

/-- A grammar text with the two blocks `S / A` and `T / A`, and between them a line
of `n` spaces. -/
def textTwoBlocksBlankLine (n : Nat) : String :=
  String.mk ("S\nA\n".data ++ (blankLine n ++ "\nT\nA\n".data))

/-- A grammar text whose first line is `n` spaces, followed by the block `S / A`. -/
def textFirstBlankLine (n : Nat) : String := String.mk (blankLine n ++ "\nS\nA\n".data)

/-- A grammar text with two blocks headed by `S`, `S / A` and `S / B`, and between
them a line of `n` spaces. -/
def textDuplicateBlankLine (n : Nat) : String :=
  String.mk ("S\nA\n".data ++ (blankLine n ++ "\nS\nB\n".data))

/-- A grammar text with the blocks `S / A` and `T / FOO`, and between them a line of
`n` spaces. -/
def textUnknownBlankLine (n : Nat) : String :=
  String.mk ("S\nA\n".data ++ (blankLine n ++ "\nT\nFOO\n".data))

/-- The text `textUnknownBlankLine n` with its line of spaces emptied. -/
def textEmptiedLineUnknown : String := "S\nA\n\nT\nFOO\n"

/-! ## Basic facts about the engine -/

theorem terminalNodesList_append (a b : List (TreeNode ParseNode)) :
    terminalNodesList (a ++ b) = terminalNodesList a ++ terminalNodesList b := by
  induction a with
  | nil => simp [terminalNodesList]
  | cons c cs ih => simp [terminalNodesList, ih, List.append_assoc]

theorem tokenSlice_self (programTokens : List Token) (i : Nat) :
    tokenSlice programTokens i i = [] := by
  simp [tokenSlice]

theorem tokenSlice_one (programTokens : List Token) (i : Nat) (hi : i < programTokens.length) :
    tokenSlice programTokens i (i + 1) = [tokenNode programTokens[i]] := by
  have h : programTokens.drop i = programTokens[i] :: programTokens.drop (i + 1) :=
    List.drop_eq_getElem_cons hi
  have h1 : i + 1 - i = 1 := by omega
  simp only [tokenSlice, h1]
  rw [h]
  rfl

theorem tokenSlice_append (programTokens : List Token) (i k j : Nat) (hik : i ≤ k) (hkj : k ≤ j) :
    tokenSlice programTokens i k ++ tokenSlice programTokens k j = tokenSlice programTokens i j := by
  unfold tokenSlice
  rw [← List.map_append]
  congr 1
  have h1 : j - i = (k - i) + (j - k) := by omega
  have h2 : programTokens.drop k = (programTokens.drop i).drop (k - i) := by
    rw [List.drop_drop]; congr 1; omega
  rw [h1, h2, List.take_add]

/-- Reading past the end of the token slice is the runtime panic, whatever the
symbol. -/
theorem naiveParseRecursive_out_of_range (fuel : Nat) (programTokens : List Token)
    (grammar : GrammarRules) (currentSymbol startSymbol : GrammarSymbol) (tokenIndex : Nat)
    (h : programTokens.length ≤ tokenIndex) :
    naiveParseRecursive (fuel + 1) programTokens grammar currentSymbol startSymbol tokenIndex =
      .panic (.indexOutOfRange tokenIndex programTokens.length) := by
  have hnone : programTokens[tokenIndex]? = none := List.getElem?_eq_none h
  simp [naiveParseRecursive, hnone]

/-- A call that returns was made at an index inside the token slice. -/
theorem naiveParseRecursive_ret_in_range (fuel : Nat) (programTokens : List Token)
    (grammar : GrammarRules) (currentSymbol startSymbol : GrammarSymbol) (tokenIndex : Nat)
    (r : ParseResult)
    (h : naiveParseRecursive fuel programTokens grammar currentSymbol startSymbol tokenIndex
      = .ret r) : tokenIndex < programTokens.length := by
  cases fuel with
  | zero => simp [naiveParseRecursive] at h
  | succ fuel =>
    by_contra hlt
    rw [naiveParseRecursive_out_of_range fuel _ _ _ _ _ (Nat.le_of_not_lt hlt)] at h
    cases h

/-- One step of the recursion at an index inside the token slice. -/
theorem naiveParseRecursive_succ (fuel : Nat) (programTokens : List Token)
    (grammar : GrammarRules) (currentSymbol startSymbol : GrammarSymbol) (tokenIndex : Nat)
    (hi : tokenIndex < programTokens.length) :
    naiveParseRecursive (fuel + 1) programTokens grammar currentSymbol startSymbol tokenIndex =
      if currentSymbol.IsTerminal then
        if currentSymbol.Name ≠ programTokens[tokenIndex].Name then .ret (none, tokenIndex)
        else .ret (some (.mk (tokenNode programTokens[tokenIndex]) []), tokenIndex + 1)
      else
        parseRules
          (fun childSymbol childTokenIndex =>
            naiveParseRecursive fuel programTokens grammar childSymbol startSymbol childTokenIndex)
          programTokens currentSymbol startSymbol tokenIndex (grammar.get currentSymbol.Name) := by
  have hsome : programTokens[tokenIndex]? = some programTokens[tokenIndex] :=
    List.getElem?_eq_getElem hi
  simp [naiveParseRecursive, hsome, tokenNode]

theorem Run.derived_ret_some (node : TreeNode ParseNode) (k : Nat) :
    Run.derived (.ret (some node, k)) = some (node, k) := rfl

theorem Run.derived_ret_none (k : Nat) : Run.derived (.ret (none, k)) = none := rfl

theorem Run.derived_panic (p : Panic) : Run.derived (.panic p) = none := rfl

theorem Run.derived_outOfFuel : Run.derived .outOfFuel = none := rfl

/-- The loop over the children says yes exactly when the symbols all derive in
the sense of `specDeriveAll`, and then it has appended the derived children. -/
theorem parseChildren_true_iff (call : GrammarSymbol → Nat → Run ParseResult)
    (rule : List GrammarSymbol) (acc children : List (TreeNode ParseNode)) (k j : Nat) :
    parseChildren call rule acc k = .ret (true, children, j) ↔
      ∃ cs, specDeriveAll (fun s i => (call s i).derived) rule k = some (cs, j) ∧
        children = acc ++ cs := by
  induction rule generalizing acc k with
  | nil =>
    simp only [parseChildren, specDeriveAll]
    constructor
    · intro h
      injection h with h
      simp only [Prod.mk.injEq, true_and] at h
      exact ⟨[], by simp [h.2], by simp [h.1]⟩
    · rintro ⟨cs, h1, h2⟩
      simp only [Option.some.injEq, Prod.mk.injEq] at h1
      rw [h2, ← h1.1, ← h1.2]
      simp
  | cons s rest ih =>
    simp only [parseChildren, specDeriveAll]
    cases hc : call s k with
    | outOfFuel => simp [Run.derived_outOfFuel]
    | panic p => simp [Run.derived_panic]
    | ret r =>
      obtain ⟨n, k'⟩ := r
      cases n with
      | none => simp [Run.derived_ret_none]
      | some node =>
        simp only [Run.derived_ret_some]
        rw [ih]
        constructor
        · rintro ⟨cs, h1, h2⟩
          refine ⟨node :: cs, ?_, ?_⟩
          · simp [h1]
          · simp [h2]
        · rintro ⟨cs, h1, h2⟩
          cases hd : specDeriveAll (fun s i => (call s i).derived) rest k' with
          | none => simp [hd] at h1
          | some v =>
            obtain ⟨cs', j'⟩ := v
            simp only [hd, Option.some.injEq, Prod.mk.injEq] at h1
            refine ⟨cs', ?_, ?_⟩
            · simp [h1.2]
            · rw [h2, ← h1.1]; simp

/-- When every call on a child returns and the symbols do not all derive, the
loop over the children says no. -/
theorem parseChildren_false_of_return (call : GrammarSymbol → Nat → Run ParseResult)
    (rule : List GrammarSymbol) (acc : List (TreeNode ParseNode)) (k : Nat)
    (hret : childrenReturn call rule k = true)
    (hnone : specDeriveAll (fun s i => (call s i).derived) rule k = none) :
    ∃ children j, parseChildren call rule acc k = .ret (false, children, j) := by
  induction rule generalizing acc k with
  | nil => simp [specDeriveAll] at hnone
  | cons s rest ih =>
    simp only [parseChildren]
    simp only [childrenReturn] at hret
    simp only [specDeriveAll] at hnone
    cases hc : call s k with
    | outOfFuel => simp [hc] at hret
    | panic p => simp [hc] at hret
    | ret r =>
      obtain ⟨n, k'⟩ := r
      cases n with
      | none => exact ⟨acc, k', rfl⟩
      | some node =>
        simp only [hc] at hret
        simp only [hc, Run.derived_ret_some] at hnone
        cases hd : specDeriveAll (fun s i => (call s i).derived) rest k' with
        | none => exact ih (acc ++ [node]) k' hret hd
        | some v => simp [hd] at hnone

/-- The loop over the rules, when every production that is reached has all its
attempted child calls return, gives the result of the first production that
qualifies. -/
theorem parseRules_eq_spec (call : GrammarSymbol → Nat → Run ParseResult)
    (programTokens : List Token) (X S : GrammarSymbol) (i : Nat)
    (rules : List (List GrammarSymbol))
    (hret : ∀ pre rule post, rules = pre ++ rule :: post →
      (∀ q ∈ pre, specQualifies (fun s k => (call s k).derived) programTokens.length X S i q
        = none) →
      childrenReturn call rule i = true) :
    parseRules call programTokens X S i rules =
      .ret (specNonTerminal (fun s k => (call s k).derived) programTokens.length X S i rules) := by
  induction rules with
  | nil => simp [parseRules, specNonTerminal]
  | cons rule rest ih =>
    have hfirst : childrenReturn call rule i = true :=
      hret [] rule rest rfl (by simp)
    cases hd : specDeriveAll (fun s k => (call s k).derived) rule i with
    | none =>
      obtain ⟨children, j, hpc⟩ := parseChildren_false_of_return call rule [] i hfirst hd
      have hq : specQualifies (fun s k => (call s k).derived) programTokens.length X S i rule
          = none := by simp [specQualifies, hd]
      have hrest := ih (fun pre r post hsplit hpre =>
        hret (rule :: pre) r post (by simp [hsplit]) (by
          intro q hqmem
          rcases List.mem_cons.mp hqmem with h | h
          · rw [h]; exact hq
          · exact hpre q h))
      simp only [parseRules, hpc, Bool.false_and, Bool.false_eq_true, if_false] 
      rw [hrest]
      simp [specNonTerminal, List.findSome?, hq]
    | some v =>
      obtain ⟨cs, j⟩ := v
      have hpc : parseChildren call rule [] i = .ret (true, cs, j) :=
        (parseChildren_true_iff call rule [] cs i j).mpr ⟨cs, hd, by simp⟩
      by_cases hex : X.Name = S.Name ∧ j ≠ programTokens.length
      · have hq : specQualifies (fun s k => (call s k).derived) programTokens.length X S i rule
            = none := by simp [specQualifies, hd, hex]
        have hrest := ih (fun pre r post hsplit hpre =>
          hret (rule :: pre) r post (by simp [hsplit]) (by
            intro q hqmem
            rcases List.mem_cons.mp hqmem with h | h
            · rw [h]; exact hq
            · exact hpre q h))
        simp only [parseRules, hpc]
        rw [hrest]
        simp [specNonTerminal, List.findSome?, hq, hex.1, hex.2]
      · have hq : specQualifies (fun s k => (call s k).derived) programTokens.length X S i rule
            = some (cs, j) := by simp [specQualifies, hd, hex]
        simp only [parseRules, hpc]
        simp only [specNonTerminal, List.findSome?, hq]
        rw [not_and_or] at hex
        rcases hex with h | h
        · simp [h]
        · simp only [ne_eq, not_not] at h
          simp [h]

/-- Inversion of the loop over the rules: a returned node comes from one of the
rules, whose symbols all derived, and carries the exactness check when the symbol
bears the start symbol's name. -/
theorem parseRules_ret_some (call : GrammarSymbol → Nat → Run ParseResult)
    (programTokens : List Token) (X S : GrammarSymbol) (i : Nat)
    (rules : List (List GrammarSymbol)) (node : TreeNode ParseNode) (j : Nat)
    (h : parseRules call programTokens X S i rules = .ret (some node, j)) :
    ∃ rule ∈ rules, ∃ cs, specDeriveAll (fun s k => (call s k).derived) rule i = some (cs, j) ∧
      node = .mk { Name := X.Name, Value := X.Name, IsTerminal := false } cs ∧
      (X.Name = S.Name → j = programTokens.length) := by
  induction rules with
  | nil => simp [parseRules] at h
  | cons rule rest ih =>
    simp only [parseRules] at h
    cases hpc : parseChildren call rule [] i with
    | outOfFuel => simp [hpc] at h
    | panic p => simp [hpc] at h
    | ret r =>
      obtain ⟨b, children, k⟩ := r
      simp only [hpc] at h
      cases b with
      | false =>
        simp only [Bool.false_and, Bool.false_eq_true, if_false] at h
        obtain ⟨r, hr, hrest⟩ := ih h
        exact ⟨r, List.mem_cons_of_mem _ hr, hrest⟩
      | true =>
        obtain ⟨cs, hd, hcs⟩ := (parseChildren_true_iff call rule [] children i k).mp hpc
        simp only [List.nil_append] at hcs
        by_cases hname : X.Name = S.Name
        · by_cases hk : k = programTokens.length
          · simp only [hname, hk, Bool.true_and, beq_self_eq_true, if_true, bne_self_eq_false,
              Bool.false_eq_true, if_false, Run.ret.injEq, Prod.mk.injEq, Option.some.injEq] at h
            refine ⟨rule, List.mem_cons_self _ _, cs, ?_, ?_, ?_⟩
            · rw [hd, ← h.2, hk]
            · rw [← h.1, hcs, hname]
            · intro _; exact h.2.symm
          · have hne : (k != programTokens.length) = true := by simp [hk]
            simp only [hname, Bool.true_and, beq_self_eq_true, if_true, hne, Bool.false_eq_true,
              if_false] at h
            obtain ⟨r, hr, hrest⟩ := ih h
            exact ⟨r, List.mem_cons_of_mem _ hr, hrest⟩
        · have hne : (X.Name == S.Name) = false := by simp [hname]
          simp only [hne, Bool.and_false, Bool.false_eq_true, if_false, if_true, Run.ret.injEq,
            Prod.mk.injEq, Option.some.injEq] at h
          refine ⟨rule, List.mem_cons_self _ _, cs, ?_, ?_, ?_⟩
          · rw [hd, ← h.2]
          · rw [← h.1, hcs]
          · intro hc; exact absurd hc hname

/-- One round of the loop over the rules, once the loop over the children of the
first rule has returned: the rule is accepted when all children were parsed and
the end-of-input check, made for a symbol bearing the start symbol's name, does
not fail. -/
theorem parseRules_cons_ret (call : GrammarSymbol → Nat → Run ParseResult)
    (programTokens : List Token) (X S : GrammarSymbol) (i : Nat)
    (rule : List GrammarSymbol) (rest : List (List GrammarSymbol))
    (b : Bool) (children : List (TreeNode ParseNode)) (k : Nat)
    (hpc : parseChildren call rule [] i = .ret (b, children, k)) :
    parseRules call programTokens X S i (rule :: rest) =
      if b = true ∧ ¬ (X.Name = S.Name ∧ k ≠ programTokens.length) then
        .ret (some (.mk { Name := X.Name, Value := X.Name, IsTerminal := false } children), k)
      else parseRules call programTokens X S i rest := by
  simp only [parseRules, hpc]
  cases b with
  | false => simp
  | true =>
    by_cases hname : X.Name = S.Name
    · by_cases hk : k = programTokens.length
      · simp [hname, hk]
      · simp [hname, hk]
    · simp [hname]

/-- Inversion of the loop over the rules: a no-match leaves the index where it
was. -/
theorem parseRules_ret_none (call : GrammarSymbol → Nat → Run ParseResult)
    (programTokens : List Token) (X S : GrammarSymbol) (i : Nat)
    (rules : List (List GrammarSymbol)) (j : Nat)
    (h : parseRules call programTokens X S i rules = .ret (none, j)) : j = i := by
  induction rules with
  | nil =>
    simp only [parseRules, Run.ret.injEq, Prod.mk.injEq, true_and] at h
    exact h.symm
  | cons rule rest ih =>
    cases hpc : parseChildren call rule [] i with
    | outOfFuel => simp [parseRules, hpc] at h
    | panic p => simp [parseRules, hpc] at h
    | ret r =>
      obtain ⟨b, children, k⟩ := r
      rw [parseRules_cons_ret _ _ _ _ _ _ _ _ _ _ hpc] at h
      split at h
      · cases h
      · exact ih h

/-- The children of a production that derived span the tokens between the start
index and the final index, when each child does. -/
theorem specDeriveAll_spans (programTokens : List Token)
    (child : GrammarSymbol → Nat → Option (TreeNode ParseNode × Nat))
    (hchild : ∀ s k node j, child s k = some (node, j) →
      k ≤ j ∧ j ≤ programTokens.length ∧ terminalNodes node = tokenSlice programTokens k j)
    (rule : List GrammarSymbol) (k : Nat) (cs : List (TreeNode ParseNode)) (j : Nat)
    (hk : k ≤ programTokens.length)
    (h : specDeriveAll child rule k = some (cs, j)) :
    k ≤ j ∧ j ≤ programTokens.length ∧ terminalNodesList cs = tokenSlice programTokens k j := by
  induction rule generalizing k cs j with
  | nil =>
    simp only [specDeriveAll, Option.some.injEq, Prod.mk.injEq] at h
    rw [← h.1, ← h.2]
    exact ⟨Nat.le_refl _, hk, by simp [terminalNodesList, tokenSlice_self]⟩
  | cons s rest ih =>
    simp only [specDeriveAll] at h
    cases hc : child s k with
    | none => simp [hc] at h
    | some v =>
      obtain ⟨node, k'⟩ := v
      simp only [hc] at h
      cases hd : specDeriveAll child rest k' with
      | none => simp [hd] at h
      | some w =>
        obtain ⟨cs', j'⟩ := w
        simp only [hd, Option.some.injEq, Prod.mk.injEq] at h
        obtain ⟨h1, h2, h3⟩ := hchild s k node k' hc
        obtain ⟨i1, i2, i3⟩ := ih k' cs' j' h2 hd
        rw [← h.1, ← h.2]
        refine ⟨Nat.le_trans h1 i1, i2, ?_⟩
        simp only [terminalNodesList, h3, i3]
        exact tokenSlice_append programTokens k k' j' h1 i1

/-- Every node returned by `naiveParseRecursive` spans the tokens between the index
of the call and the returned index. -/
theorem naiveParseRecursive_spans (fuel : Nat) (programTokens : List Token)
    (grammar : GrammarRules) (startSymbol : GrammarSymbol) :
    ∀ (currentSymbol : GrammarSymbol) (i : Nat) (node : TreeNode ParseNode) (j : Nat),
      naiveParseRecursive fuel programTokens grammar currentSymbol startSymbol i
        = .ret (some node, j) →
      i ≤ j ∧ j ≤ programTokens.length ∧ terminalNodes node = tokenSlice programTokens i j := by
  induction fuel with
  | zero => intro s i node j h; simp [naiveParseRecursive] at h
  | succ fuel ih =>
    intro s i node j h
    have hi : i < programTokens.length := naiveParseRecursive_ret_in_range _ _ _ _ _ _ _ h
    rw [naiveParseRecursive_succ fuel _ _ _ _ _ hi] at h
    by_cases hs : s.IsTerminal = true
    · simp only [hs, if_true] at h
      split at h
      · cases h
      · simp only [Run.ret.injEq, Prod.mk.injEq, Option.some.injEq] at h
        rw [← h.1, ← h.2]
        refine ⟨Nat.le_succ _, hi, ?_⟩
        rw [tokenSlice_one programTokens i hi]
        simp [terminalNodes, terminalNodesList, tokenNode]
    · simp only [hs, if_false] at h
      obtain ⟨rule, _, cs, hd, hnode, _⟩ := parseRules_ret_some _ _ _ _ _ _ _ _ h
      have hchild : ∀ s k node j,
          (naiveParseRecursive fuel programTokens grammar s startSymbol k).derived
            = some (node, j) →
          k ≤ j ∧ j ≤ programTokens.length ∧
            terminalNodes node = tokenSlice programTokens k j := by
        intro s' k node' j' hder
        apply ih s' k node' j'
        cases hr : naiveParseRecursive fuel programTokens grammar s' startSymbol k with
        | outOfFuel => simp [hr, Run.derived_outOfFuel] at hder
        | panic p => simp [hr, Run.derived_panic] at hder
        | ret r =>
          obtain ⟨n, k'⟩ := r
          cases n with
          | none => simp [hr, Run.derived_ret_none] at hder
          | some n' =>
            simp only [hr, Run.derived_ret_some, Option.some.injEq, Prod.mk.injEq] at hder
            rw [hder.1, hder.2]
      obtain ⟨h1, h2, h3⟩ := specDeriveAll_spans programTokens _ hchild rule i cs j
        (Nat.le_of_lt hi) hd
      refine ⟨h1, h2, ?_⟩
      rw [hnode]
      simp [terminalNodes, h3]

/-! ## Fuel: more fuel never changes a result -/

theorem parseChildren_fuel (call call' : GrammarSymbol → Nat → Run ParseResult)
    (hcall : ∀ s k, call s k ≠ .outOfFuel → call' s k = call s k)
    (rule : List GrammarSymbol) (acc : List (TreeNode ParseNode)) (k : Nat)
    (h : parseChildren call rule acc k ≠ .outOfFuel) :
    parseChildren call' rule acc k = parseChildren call rule acc k := by
  induction rule generalizing acc k with
  | nil => simp [parseChildren]
  | cons s rest ih =>
    simp only [parseChildren] at h ⊢
    cases hc : call s k with
    | outOfFuel => simp [hc] at h
    | panic p =>
      have h' := hcall s k (by simp [hc])
      simp [h', hc]
    | ret r =>
      have h' := hcall s k (by simp [hc])
      obtain ⟨n, k'⟩ := r
      cases n with
      | none => simp [h', hc]
      | some node =>
        simp only [hc] at h
        simp only [h', hc]
        exact ih _ _ h

theorem parseRules_fuel (call call' : GrammarSymbol → Nat → Run ParseResult)
    (hcall : ∀ s k, call s k ≠ .outOfFuel → call' s k = call s k)
    (programTokens : List Token) (X S : GrammarSymbol) (i : Nat)
    (rules : List (List GrammarSymbol))
    (h : parseRules call programTokens X S i rules ≠ .outOfFuel) :
    parseRules call' programTokens X S i rules = parseRules call programTokens X S i rules := by
  induction rules with
  | nil => simp [parseRules]
  | cons rule rest ih =>
    cases hpc : parseChildren call rule [] i with
    | outOfFuel => simp [parseRules, hpc] at h
    | panic p =>
      have hpc' := parseChildren_fuel call call' hcall rule [] i (by simp [hpc])
      rw [hpc] at hpc'
      simp [parseRules, hpc, hpc']
    | ret r =>
      have hpc' := parseChildren_fuel call call' hcall rule [] i (by simp [hpc])
      rw [hpc] at hpc'
      obtain ⟨b, children, k⟩ := r
      rw [parseRules_cons_ret _ _ _ _ _ _ _ _ _ _ hpc] at h ⊢
      rw [parseRules_cons_ret _ _ _ _ _ _ _ _ _ _ hpc']
      split
      · rfl
      · rename_i hacc
        rw [if_neg hacc] at h
        exact ih h

/-- One more unit of fuel does not change a result that is not `outOfFuel`. -/
theorem naiveParseRecursive_fuel_succ (fuel : Nat) (programTokens : List Token)
    (grammar : GrammarRules) (startSymbol : GrammarSymbol) :
    ∀ (currentSymbol : GrammarSymbol) (i : Nat),
      naiveParseRecursive fuel programTokens grammar currentSymbol startSymbol i ≠ .outOfFuel →
      naiveParseRecursive (fuel + 1) programTokens grammar currentSymbol startSymbol i =
        naiveParseRecursive fuel programTokens grammar currentSymbol startSymbol i := by
  induction fuel with
  | zero => intro s i h; simp [naiveParseRecursive] at h
  | succ fuel ih =>
    intro s i h
    by_cases hi : i < programTokens.length
    · rw [naiveParseRecursive_succ (fuel + 1) _ _ _ _ _ hi]
      rw [naiveParseRecursive_succ fuel _ _ _ _ _ hi] at h ⊢
      by_cases hs : s.IsTerminal = true
      · simp [hs]
      · simp only [hs, if_false] at h ⊢
        exact parseRules_fuel _ _ (fun s' k hne => ih s' k hne) _ _ _ _ _ h
    · have hle := Nat.le_of_not_lt hi
      rw [naiveParseRecursive_out_of_range (fuel + 1) _ _ _ _ _ hle,
        naiveParseRecursive_out_of_range fuel _ _ _ _ _ hle]

/-- More fuel does not change a result that is not `outOfFuel`. -/
theorem naiveParseRecursive_fuel_le (n m : Nat) (hnm : n ≤ m) (programTokens : List Token)
    (grammar : GrammarRules) (currentSymbol startSymbol : GrammarSymbol) (i : Nat)
    (h : naiveParseRecursive n programTokens grammar currentSymbol startSymbol i ≠ .outOfFuel) :
    naiveParseRecursive m programTokens grammar currentSymbol startSymbol i =
      naiveParseRecursive n programTokens grammar currentSymbol startSymbol i := by
  induction m with
  | zero =>
    have : n = 0 := Nat.le_zero.mp hnm
    rw [this]
  | succ m ih =>
    rcases Nat.lt_or_ge m n with hlt | hge
    · have : n = m + 1 := by omega
      rw [this]
    · have hm := ih hge
      rw [← hm] at h
      rw [naiveParseRecursive_fuel_succ m _ _ _ _ _ h, hm]

/-- A result obtained with some fuel is obtained with any larger fuel. -/
theorem naiveParseRecursive_fuel_add (n d : Nat) (programTokens : List Token)
    (grammar : GrammarRules) (currentSymbol startSymbol : GrammarSymbol) (i : Nat)
    (r : Run ParseResult) (hr : r ≠ .outOfFuel)
    (h : naiveParseRecursive n programTokens grammar currentSymbol startSymbol i = r) :
    naiveParseRecursive (d + n) programTokens grammar currentSymbol startSymbol i = r := by
  rw [naiveParseRecursive_fuel_le n (d + n) (Nat.le_add_left n d) _ _ _ _ _ (by rw [h]; exact hr)]
  exact h

/-- Two runs of the same call that both finish agree, whatever their fuel. -/
theorem naiveParseRecursive_fuel_agree (n m : Nat) (programTokens : List Token)
    (grammar : GrammarRules) (currentSymbol startSymbol : GrammarSymbol) (i : Nat)
    (hn : naiveParseRecursive n programTokens grammar currentSymbol startSymbol i ≠ .outOfFuel)
    (hm : naiveParseRecursive m programTokens grammar currentSymbol startSymbol i ≠ .outOfFuel) :
    naiveParseRecursive n programTokens grammar currentSymbol startSymbol i =
      naiveParseRecursive m programTokens grammar currentSymbol startSymbol i := by
  rcases Nat.le_total n m with h | h
  · exact (naiveParseRecursive_fuel_le n m h _ _ _ _ _ hn).symm
  · exact naiveParseRecursive_fuel_le m n h _ _ _ _ _ hm

/-! ## The derivation engine: the claims -/

/-- C1 (as amended). For every rule table, token sequence, start symbol,
non-terminal symbol `X` and in-range index `i`: provided that, in every production
of `X` that is reached (every earlier production failed to qualify), each call made
on a member symbol returns, `naiveParseRecursive(X, i)` returns the result of the
first production of `X`, in declared order, whose member symbols all derive left to
right (each child started at the index returned by the previous child) and, when
`X` bears the start symbol's name, whose final index equals `len(tokens)`: the node
is named `X`, has exactly those children in order, and comes with the index after
the last child; when no production qualifies the result is no node. Nothing is
assumed of the productions after the accepted one: they are not consulted. -/
theorem naiveParseRecursive_first_production (fuel : Nat) (programTokens : List Token)
    (grammar : GrammarRules) (X startSymbol : GrammarSymbol) (i : Nat)
    (hX : X.IsTerminal = false) (hi : i < programTokens.length)
    (hret : ∀ pre rule post, grammar.get X.Name = pre ++ rule :: post →
      (∀ q ∈ pre, specQualifies
        (fun s k => (naiveParseRecursive fuel programTokens grammar s startSymbol k).derived)
        programTokens.length X startSymbol i q = none) →
      childrenReturn
        (fun s k => naiveParseRecursive fuel programTokens grammar s startSymbol k) rule i
        = true) :
    naiveParseRecursive (fuel + 1) programTokens grammar X startSymbol i =
      .ret (specNonTerminal
        (fun s k => (naiveParseRecursive fuel programTokens grammar s startSymbol k).derived)
        programTokens.length X startSymbol i (grammar.get X.Name)) := by
  rw [naiveParseRecursive_succ fuel _ _ _ _ _ hi]
  simp only [hX, Bool.false_eq_true, if_false]
  exact parseRules_eq_spec _ programTokens X startSymbol i (grammar.get X.Name) hret

/-- C1, witness: scenario A. `Start: NUM PLUS NUM` on `NUM:1 PLUS:+ NUM:2` gives the
node `Start` with the leaf children `NUM(1)`, `PLUS(+)`, `NUM(2)` and the index 3. -/
theorem naiveParseRecursive_first_production_witness :
    (nonTerminal "Start").IsTerminal = false ∧ 0 < tokensA.length ∧
    naiveParseRecursive 2 tokensA grammarA (nonTerminal "Start") (nonTerminal "Start") 0 =
      .ret (specNonTerminal
        (fun s k =>
          (naiveParseRecursive 1 tokensA grammarA s (nonTerminal "Start") k).derived)
        tokensA.length (nonTerminal "Start") (nonTerminal "Start") 0
        (grammarA.get (nonTerminal "Start").Name)) ∧
    specNonTerminal
        (fun s k =>
          (naiveParseRecursive 1 tokensA grammarA s (nonTerminal "Start") k).derived)
        tokensA.length (nonTerminal "Start") (nonTerminal "Start") 0
        (grammarA.get (nonTerminal "Start").Name) = (some treeA, 3) :=
  ⟨rfl, by decide,
    naiveParseRecursive_first_production 1 tokensA grammarA (nonTerminal "Start")
      (nonTerminal "Start") 0 rfl (by decide) (by
        intro pre rule post hsplit _
        have hg : grammarA.get (nonTerminal "Start").Name
            = [[terminal "NUM", terminal "PLUS", terminal "NUM"]] := rfl
        rw [hg] at hsplit
        cases pre with
        | nil =>
          simp only [List.nil_append, List.cons.injEq] at hsplit
          rw [← hsplit.1]
          rfl
        | cons q pre =>
          have hlen := congrArg List.length hsplit
          simp at hlen),
    rfl⟩

/-- C1, counterexample. On `X: A B | A` with the single token `A`, the production
`A` is the first one whose member symbols all derive and it ends at `len(tokens)`,
so the claim promises the node `X(A)` with index 1; the call returns nothing, with
any fuel: trying `A B` first, it reads the token at index 1 and panics. On the left
recursive `X: X A | A` the call returns nothing either: it runs out of any fuel. -/
theorem naiveParseRecursive_first_production_counterexample :
    (specNonTerminal
        (fun s k =>
          (naiveParseRecursive 1 tokensOneA grammarLongFirst s (nonTerminal "X") k).derived)
        tokensOneA.length (nonTerminal "X") (nonTerminal "X") 0
        (grammarLongFirst.get "X") = (some (inner "X" [leaf "A" "a"]), 1)) ∧
    (∀ fuel r, naiveParseRecursive fuel tokensOneA grammarLongFirst (nonTerminal "X")
        (nonTerminal "X") 0 ≠ .ret r) ∧
    (∀ fuel, naiveParseRecursive (fuel + 2) tokensOneA grammarLongFirst (nonTerminal "X")
        (nonTerminal "X") 0 = .panic (.indexOutOfRange 1 1)) ∧
    (∀ fuel, naiveParseRecursive fuel tokensOneA grammarLeftRec (nonTerminal "X")
        (nonTerminal "X") 0 = .outOfFuel) := by
  have hpanic : ∀ fuel, naiveParseRecursive (fuel + 2) tokensOneA grammarLongFirst
      (nonTerminal "X") (nonTerminal "X") 0 = .panic (.indexOutOfRange 1 1) := fun fuel =>
    naiveParseRecursive_fuel_add 2 fuel _ _ _ _ _ _ (by simp) rfl
  refine ⟨rfl, ?_, hpanic, ?_⟩
  · intro fuel r h
    match fuel with
    | 0 => cases h
    | 1 => cases h
    | n + 2 => rw [hpanic n] at h; cases h
  · intro fuel
    induction fuel with
    | zero => rfl
    | succ n ih =>
      rw [naiveParseRecursive_succ n _ _ _ _ _ (by decide)]
      simp only [nonTerminal, Bool.false_eq_true, if_false]
      have hg : GrammarRules.get grammarLeftRec "X"
          = [[nonTerminal "X", terminal "A"], [terminal "A"]] := rfl
      rw [hg]
      simp only [parseRules, parseChildren, nonTerminal]
      simp only [nonTerminal] at ih
      rw [ih]

/-- C2. Terminal round trip: for every token sequence, index `i < len(tokens)` and
terminal symbol `s`, if `s.Name == tokens[i].Name` then `naiveParseRecursive(s, i)`
returns a childless node with the name and the value of `tokens[i]` and
`IsTerminal = true`, together with the index `i + 1`; if the names differ it
returns no node together with the index `i`. Neither the rule table nor the start
symbol plays a part, and one unit of fuel is enough. -/
theorem naiveParseRecursive_terminal_round_trip (fuel : Nat) (programTokens : List Token)
    (grammar : GrammarRules) (s startSymbol : GrammarSymbol) (i : Nat)
    (hi : i < programTokens.length) (hs : s.IsTerminal = true) :
    (s.Name = programTokens[i].Name →
      naiveParseRecursive (fuel + 1) programTokens grammar s startSymbol i =
        .ret (some (.mk { Name := programTokens[i].Name, Value := programTokens[i].Value,
                          IsTerminal := true } []), i + 1)) ∧
    (s.Name ≠ programTokens[i].Name →
      naiveParseRecursive (fuel + 1) programTokens grammar s startSymbol i = .ret (none, i)) := by
  rw [naiveParseRecursive_succ fuel _ _ _ _ _ hi]
  constructor
  · intro hname
    simp [hs, hname, tokenNode]
  · intro hname
    simp [hs, hname]

/-- C2, witness: on `NUM:1 PLUS:+ NUM:2` at index 1 the terminal `PLUS` gives the
leaf `PLUS(+)` and the index 2, and the terminal `NUM` gives no node and the
index 1. -/
theorem naiveParseRecursive_terminal_round_trip_witness :
    (1 < tokensA.length ∧ (terminal "PLUS").IsTerminal = true ∧
      naiveParseRecursive 1 tokensA grammarA (terminal "PLUS") (nonTerminal "Start") 1 =
        .ret (some (leaf "PLUS" "+"), 2)) ∧
    (1 < tokensA.length ∧ (terminal "NUM").IsTerminal = true ∧
      naiveParseRecursive 1 tokensA grammarA (terminal "NUM") (nonTerminal "Start") 1 =
        .ret (none, 1)) :=
  ⟨⟨by decide, rfl,
      (naiveParseRecursive_terminal_round_trip 0 tokensA grammarA (terminal "PLUS")
        (nonTerminal "Start") 1 (by decide) rfl).1 (by decide)⟩,
    ⟨by decide, rfl,
      (naiveParseRecursive_terminal_round_trip 0 tokensA grammarA (terminal "NUM")
        (nonTerminal "Start") 1 (by decide) rfl).2 (by decide)⟩⟩

/-- A node returned for a non-terminal that bears the start symbol's name comes
with the index `len(tokens)`. -/
theorem naiveParseRecursive_start_name_exact (fuel : Nat) (programTokens : List Token)
    (grammar : GrammarRules) (X startSymbol : GrammarSymbol) (i : Nat)
    (node : TreeNode ParseNode) (j : Nat)
    (hX : X.IsTerminal = false) (hname : X.Name = startSymbol.Name)
    (h : naiveParseRecursive fuel programTokens grammar X startSymbol i = .ret (some node, j)) :
    j = programTokens.length := by
  have hi : i < programTokens.length := naiveParseRecursive_ret_in_range _ _ _ _ _ _ _ h
  cases fuel with
  | zero => simp [naiveParseRecursive] at h
  | succ fuel =>
    rw [naiveParseRecursive_succ fuel _ _ _ _ _ hi] at h
    simp only [hX, Bool.false_eq_true, if_false] at h
    obtain ⟨_, _, _, _, _, hexact⟩ := parseRules_ret_some _ _ _ _ _ _ _ _ h
    exact hexact hname

/-- What `naiveParse` returns is the node of the underlying call at index 0. -/
theorem naiveParse_ret (fuel : Nat) (programTokens : List Token) (grammar : GrammarRules)
    (firstSymbol : GrammarSymbol) (tree : TreeNode ParseNode)
    (h : naiveParse fuel programTokens grammar firstSymbol = .ret tree) :
    ∃ j, naiveParseRecursive fuel programTokens grammar firstSymbol firstSymbol 0
      = .ret (some tree, j) := by
  unfold naiveParse at h
  cases hr : naiveParseRecursive fuel programTokens grammar firstSymbol firstSymbol 0 with
  | outOfFuel => simp [hr] at h
  | panic p => simp [hr] at h
  | ret r =>
    obtain ⟨n, j⟩ := r
    cases n with
    | none => simp [hr] at h
    | some t =>
      simp only [hr, Run.ret.injEq] at h
      exact ⟨j, by rw [h]⟩

theorem tokenSlice_all (programTokens : List Token) :
    tokenSlice programTokens 0 programTokens.length = programTokens.map tokenNode := by
  simp [tokenSlice]

theorem tokenSlice_getElem? (programTokens : List Token) (i j k : Nat) (hk : k < j - i) :
    (tokenSlice programTokens i j)[k]? = (programTokens[i + k]?).map tokenNode := by
  simp [tokenSlice, List.getElem?_take, hk]

/-- When `naiveParse` panics with some fuel, it returns a tree with no fuel. -/
theorem naiveParse_panic_never_ret (n : Nat) (programTokens : List Token)
    (grammar : GrammarRules) (firstSymbol : GrammarSymbol) (p : Panic)
    (h : naiveParse n programTokens grammar firstSymbol = .panic p) :
    ∀ m tree, naiveParse m programTokens grammar firstSymbol ≠ .ret tree := by
  intro m tree hm
  obtain ⟨j, hj⟩ := naiveParse_ret _ _ _ _ _ hm
  have hn : naiveParseRecursive n programTokens grammar firstSymbol firstSymbol 0
      ≠ .outOfFuel := by
    intro hc
    simp [naiveParse, hc] at h
  have hagree := naiveParseRecursive_fuel_agree n m programTokens grammar firstSymbol
    firstSymbol 0 hn (by rw [hj]; simp)
  rw [hj] at hagree
  simp [naiveParse, hagree] at h

/-- More fuel does not change what `naiveParse` does once it finishes. -/
theorem naiveParse_fuel_add (n d : Nat) (programTokens : List Token)
    (grammar : GrammarRules) (firstSymbol : GrammarSymbol) (r : Run (TreeNode ParseNode))
    (hr : r ≠ .outOfFuel) (h : naiveParse n programTokens grammar firstSymbol = r) :
    naiveParse (d + n) programTokens grammar firstSymbol = r := by
  have hn : naiveParseRecursive n programTokens grammar firstSymbol firstSymbol 0
      ≠ .outOfFuel := by
    intro hc
    simp only [naiveParse, hc] at h
    exact hr h.symm
  have := naiveParseRecursive_fuel_le n (d + n) (Nat.le_add_left n d) programTokens grammar
    firstSymbol firstSymbol 0 hn
  rw [← h]
  simp only [naiveParse, this]

/-- C5 (as amended). Exactness at every level: the check that the resulting index
equals `len(tokens)` is applied to every derivation of a non-terminal that bears the
start symbol's name, the outermost goal and nested occurrences alike (the start
symbol is handed down unchanged and compared by name): whenever
`naiveParseRecursive` returns a node for such a symbol, at whatever index it was
called, the index returned with it is `len(tokens)`. -/
theorem naiveParseRecursive_exactness_every_level (fuel : Nat) (programTokens : List Token)
    (grammar : GrammarRules) (X startSymbol : GrammarSymbol) (i : Nat)
    (node : TreeNode ParseNode) (j : Nat)
    (hX : X.IsTerminal = false) (hname : X.Name = startSymbol.Name)
    (h : naiveParseRecursive fuel programTokens grammar X startSymbol i = .ret (some node, j)) :
    j = programTokens.length ∧ terminalNodes node = (programTokens.drop i).map tokenNode := by
  have hlen := naiveParseRecursive_start_name_exact _ _ _ _ _ _ _ _ hX hname h
  obtain ⟨_, _, h3⟩ := naiveParseRecursive_spans fuel programTokens grammar startSymbol
    X i node j h
  refine ⟨hlen, ?_⟩
  rw [h3, hlen]
  simp [tokenSlice]

/-- C5, witness: on `S: B S | A` with the tokens `B A`, the nested occurrence of `S`
at index 1 returns `S(A)` with the index 2, the number of tokens. -/
theorem naiveParseRecursive_exactness_every_level_witness :
    (nonTerminal "S").IsTerminal = false ∧ (nonTerminal "S").Name = (nonTerminal "S").Name ∧
    naiveParseRecursive 2 tokensBA grammarTail (nonTerminal "S") (nonTerminal "S") 1
      = .ret (some (inner "S" [leaf "A" "a"]), 2) ∧
    (2 = tokensBA.length ∧
      terminalNodes (inner "S" [leaf "A" "a"]) = (tokensBA.drop 1).map tokenNode) :=
  ⟨rfl, rfl, rfl,
    naiveParseRecursive_exactness_every_level 2 tokensBA grammarTail (nonTerminal "S")
      (nonTerminal "S") 1 (inner "S" [leaf "A" "a"]) 2 rfl rfl rfl⟩

/-- C5, counterexample. On the grammar `S: A S B | A` with the tokens `A A B`, the
nested occurrence of `S` at index 1 has the production `A`, whose only child derives
and ends at index 2; that production is not accepted, because 2 is not the number
of tokens: the nested call returns no node. So `naiveParse` does not return
`S(A, S(A), B)`: it returns no tree with any fuel and panics with `Could not create
parse tree`. -/
theorem naiveParse_nested_start_counterexample :
    (∀ fuel, naiveParseRecursive (fuel + 3) tokensAAB grammarNested (nonTerminal "S")
      (nonTerminal "S") 1 = .ret (none, 1)) ∧
    (∀ fuel, naiveParse (fuel + 4) tokensAAB grammarNested (nonTerminal "S")
      = .panic (.logPanic "Could not create parse tree\n")) ∧
    (∀ fuel tree, naiveParse fuel tokensAAB grammarNested (nonTerminal "S") ≠ .ret tree) := by
  have hpanic : naiveParse 4 tokensAAB grammarNested (nonTerminal "S")
      = .panic (.logPanic "Could not create parse tree\n") := rfl
  refine ⟨?_, ?_, ?_⟩
  · intro fuel
    exact naiveParseRecursive_fuel_add 3 fuel _ _ _ _ _ _ (by simp) rfl
  · intro fuel
    exact naiveParse_fuel_add 4 fuel _ _ _ _ (by simp) hpanic
  · exact naiveParse_panic_never_ret 4 _ _ _ _ hpanic

/-- C6. The code at an index that is out of range: `naiveParseRecursive` reads
`tokens[tokenIndex]` before anything else, so for every rule table, token sequence
and symbol, a call at an index `len(tokens) + d` is the runtime panic of an index
out of range, not a no-match. In scenario B (`Start: NUM PLUS NUM` on the two tokens
`NUM:1 PLUS:+`) the third child is tried at index 2 and `naiveParse` ends in that
runtime panic; it never reaches its own `Could not create parse tree`. -/
theorem naiveParseRecursive_out_of_range_panics :
    (∀ (fuel : Nat) (programTokens : List Token) (grammar : GrammarRules)
        (currentSymbol startSymbol : GrammarSymbol) (d : Nat),
      naiveParseRecursive (fuel + 1) programTokens grammar currentSymbol startSymbol
        (programTokens.length + d)
        = .panic (.indexOutOfRange (programTokens.length + d) programTokens.length)) ∧
    (∀ fuel, naiveParse (fuel + 2) tokensB grammarA (nonTerminal "Start")
      = .panic (.indexOutOfRange 2 2)) ∧
    (∀ fuel, naiveParse fuel tokensB grammarA (nonTerminal "Start")
      ≠ .panic (.logPanic "Could not create parse tree\n")) := by
  have hB : ∀ fuel, naiveParse (fuel + 2) tokensB grammarA (nonTerminal "Start")
      = .panic (.indexOutOfRange 2 2) := fun fuel =>
    naiveParse_fuel_add 2 fuel _ _ _ _ (by simp) rfl
  refine ⟨?_, hB, ?_⟩
  · intro fuel programTokens grammar currentSymbol startSymbol d
    exact naiveParseRecursive_out_of_range fuel _ _ _ _ _ (Nat.le_add_right _ _)
  · intro fuel h
    match fuel with
    | 0 => cases h
    | 1 => cases h
    | n + 2 => rw [hB n] at h; cases h

/-! ## The rule table as a map -/

theorem GrammarRules.contains_iff (g : GrammarRules) (key : String) :
    g.contains key = true ↔ key ∈ g.keys := by
  induction g with
  | nil => simp [GrammarRules.contains, GrammarRules.keys]
  | cons e rest ih =>
    obtain ⟨k, v⟩ := e
    simp only [GrammarRules.contains, GrammarRules.keys, List.map_cons, List.mem_cons]
    simp only [GrammarRules.keys] at ih
    by_cases hk : k = key
    · simp [hk]
    · simp only [hk, if_false, ih]
      constructor
      · intro h; exact Or.inr h
      · rintro (h | h)
        · exact absurd h.symm hk
        · exact h

theorem GrammarRules.get_set_self (g : GrammarRules) (key : String)
    (value : List (List GrammarSymbol)) : (g.set key value).get key = value := by
  induction g with
  | nil => simp [GrammarRules.set, GrammarRules.get]
  | cons e rest ih =>
    obtain ⟨k, v⟩ := e
    by_cases hk : k = key
    · simp [GrammarRules.set, GrammarRules.get, hk]
    · simp [GrammarRules.set, GrammarRules.get, hk, ih]

theorem GrammarRules.set_set (g : GrammarRules) (key : String)
    (v w : List (List GrammarSymbol)) : (g.set key v).set key w = g.set key w := by
  induction g with
  | nil => simp [GrammarRules.set]
  | cons e rest ih =>
    obtain ⟨k, u⟩ := e
    by_cases hk : k = key
    · simp [GrammarRules.set, hk]
    · simp [GrammarRules.set, hk, ih]

theorem GrammarRules.mem_set (g : GrammarRules) (key : String)
    (value : List (List GrammarSymbol)) (e : String × List (List GrammarSymbol))
    (h : e ∈ g.set key value) : e ∈ g ∨ e = (key, value) := by
  induction g with
  | nil =>
    simp only [GrammarRules.set, List.mem_singleton] at h
    exact Or.inr h
  | cons e' rest ih =>
    obtain ⟨k, v⟩ := e'
    by_cases hk : k = key
    · simp only [GrammarRules.set, hk, if_true, List.mem_cons] at h
      rcases h with h | h
      · exact Or.inr h
      · exact Or.inl (List.mem_cons_of_mem _ h)
    · simp only [GrammarRules.set, hk, if_false, List.mem_cons] at h
      rcases h with h | h
      · exact Or.inl (by rw [h]; exact List.mem_cons_self _ _)
      · rcases ih h with h' | h'
        · exact Or.inl (List.mem_cons_of_mem _ h')
        · exact Or.inr h'

theorem GrammarRules.mem_get (g : GrammarRules) (key : String) (rule : List GrammarSymbol)
    (h : rule ∈ g.get key) : ∃ e ∈ g, e.1 = key ∧ rule ∈ e.2 := by
  induction g with
  | nil => simp [GrammarRules.get] at h
  | cons e' rest ih =>
    obtain ⟨k, v⟩ := e'
    by_cases hk : k = key
    · simp only [GrammarRules.get, hk, if_true] at h
      exact ⟨(k, v), List.mem_cons_self _ _, hk, h⟩
    · simp only [GrammarRules.get, hk, if_false] at h
      obtain ⟨e, he, h1, h2⟩ := ih h
      exact ⟨e, List.mem_cons_of_mem _ he, h1, h2⟩

theorem GrammarRules.mem_keys_of_mem_get (g : GrammarRules) (key : String)
    (rule : List GrammarSymbol) (h : rule ∈ g.get key) : key ∈ g.keys := by
  obtain ⟨e, he, h1, _⟩ := GrammarRules.mem_get g key rule h
  rw [← h1]
  exact List.mem_map_of_mem Prod.fst he

theorem GrammarRules.set_of_not_mem (g : GrammarRules) (key : String)
    (value : List (List GrammarSymbol)) (h : key ∉ g.keys) :
    g.set key value = g ++ [(key, value)] := by
  induction g with
  | nil => simp [GrammarRules.set]
  | cons e rest ih =>
    obtain ⟨k, v⟩ := e
    simp only [GrammarRules.keys, List.map_cons, List.mem_cons, not_or] at h
    have hk : ¬ k = key := fun hc => h.1 hc.symm
    simp only [GrammarRules.set, hk, if_false, List.cons_append]
    rw [ih h.2]

theorem GrammarRules.get_of_mem (g : GrammarRules) (key : String)
    (value : List (List GrammarSymbol)) (hnodup : g.keys.Nodup) (h : (key, value) ∈ g) :
    g.get key = value := by
  induction g with
  | nil => simp at h
  | cons e rest ih =>
    obtain ⟨k, v⟩ := e
    simp only [GrammarRules.keys, List.map_cons, List.nodup_cons] at hnodup
    rcases List.mem_cons.mp h with h | h
    · simp only [Prod.mk.injEq] at h
      simp [GrammarRules.get, h.1, h.2]
    · have hk : ¬ k = key := by
        intro hc
        apply hnodup.1
        rw [hc]
        exact List.mem_map_of_mem Prod.fst h
      simp only [GrammarRules.get, hk, if_false]
      exact ih hnodup.2 h

/-! ## Validation -/

/-- The function `stringIsTerminal` says yes exactly when some terminal definition
bears the name. -/
theorem stringIsTerminal_iff (name : String) (allTerminals : List TokenDefinition) :
    stringIsTerminal name allTerminals = true ↔ ∃ d ∈ allTerminals, d.Name = name := by
  induction allTerminals with
  | nil => simp [stringIsTerminal]
  | cons d rest ih =>
    by_cases hd : d.Name = name
    · simp [stringIsTerminal, hd]
    · simp [stringIsTerminal, hd, ih]

theorem validateRule_ok_iff (grammar : GrammarRules) (allTerminals : List TokenDefinition)
    (rule : List GrammarSymbol) :
    validateRule grammar allTerminals rule = .ok () ↔
      ∀ symbol ∈ rule, symbol.Name ∈ grammar.keys ∨ ∃ d ∈ allTerminals, d.Name = symbol.Name := by
  induction rule with
  | nil => simp [validateRule]
  | cons symbol rest ih =>
    simp only [validateRule, List.mem_cons, forall_eq_or_imp]
    by_cases hk : grammar.contains symbol.Name = true
    · simp only [hk, if_true, ih]
      have := (GrammarRules.contains_iff grammar symbol.Name).mp hk
      simp [this]
    · have hk' : symbol.Name ∉ grammar.keys := fun hc =>
        hk ((GrammarRules.contains_iff grammar symbol.Name).mpr hc)
      by_cases ht : stringIsTerminal symbol.Name allTerminals = true
      · simp only [hk, ht, if_true, if_false, ih]
        have := (stringIsTerminal_iff symbol.Name allTerminals).mp ht
        simp only [this, or_true, true_and]
        exact ih
      · have ht' : ¬ ∃ d ∈ allTerminals, d.Name = symbol.Name := fun hc =>
          ht ((stringIsTerminal_iff symbol.Name allTerminals).mpr hc)
        simp only [hk, ht, if_false]
        constructor
        · intro h; cases h
        · rintro ⟨h, _⟩
          rcases h with h | h
          · exact absurd h hk'
          · exact absurd h ht'

theorem validateRule_error (grammar : GrammarRules) (allTerminals : List TokenDefinition)
    (rule : List GrammarSymbol) (e : Panic)
    (h : validateRule grammar allTerminals rule = .error e) :
    ∃ symbol ∈ rule, symbol.Name ∉ grammar.keys ∧ (∀ d ∈ allTerminals, d.Name ≠ symbol.Name) ∧
      e = unknownSymbol symbol.Name := by
  induction rule with
  | nil => simp [validateRule] at h
  | cons symbol rest ih =>
    simp only [validateRule] at h
    by_cases hk : grammar.contains symbol.Name = true
    · simp only [hk, if_true] at h
      obtain ⟨s, hs, hrest⟩ := ih h
      exact ⟨s, List.mem_cons_of_mem _ hs, hrest⟩
    · by_cases ht : stringIsTerminal symbol.Name allTerminals = true
      · simp only [hk, ht, if_true, if_false] at h
        obtain ⟨s, hs, hrest⟩ := ih h
        exact ⟨s, List.mem_cons_of_mem _ hs, hrest⟩
      · simp only [hk, ht, if_false, Bool.false_eq_true, Except.error.injEq] at h
        refine ⟨symbol, List.mem_cons_self _ _, ?_, ?_, h.symm⟩
        · exact fun hc => hk ((GrammarRules.contains_iff grammar symbol.Name).mpr hc)
        · intro d hd hname
          exact ht ((stringIsTerminal_iff symbol.Name allTerminals).mpr ⟨d, hd, hname⟩)

theorem validateRules_ok_iff (grammar : GrammarRules) (allTerminals : List TokenDefinition)
    (rules : List (List GrammarSymbol)) :
    validateRules grammar allTerminals rules = .ok () ↔
      ∀ rule ∈ rules, validateRule grammar allTerminals rule = .ok () := by
  induction rules with
  | nil => simp [validateRules]
  | cons rule rest ih =>
    simp only [validateRules, List.mem_cons, forall_eq_or_imp]
    cases hr : validateRule grammar allTerminals rule with
    | error e => simp
    | ok u => simp [ih]

theorem validateRules_error (grammar : GrammarRules) (allTerminals : List TokenDefinition)
    (rules : List (List GrammarSymbol)) (e : Panic)
    (h : validateRules grammar allTerminals rules = .error e) :
    ∃ rule ∈ rules, validateRule grammar allTerminals rule = .error e := by
  induction rules with
  | nil => simp [validateRules] at h
  | cons rule rest ih =>
    simp only [validateRules] at h
    cases hr : validateRule grammar allTerminals rule with
    | error e' =>
      simp only [hr, Except.error.injEq] at h
      exact ⟨rule, List.mem_cons_self _ _, by rw [← h]; exact hr⟩
    | ok u =>
      simp only [hr] at h
      obtain ⟨r, hmem, hrest⟩ := ih h
      exact ⟨r, List.mem_cons_of_mem _ hmem, hrest⟩

theorem validateKeys_ok_iff (grammar : GrammarRules) (allTerminals : List TokenDefinition)
    (keys : List String) :
    validateKeys grammar allTerminals keys = .ok () ↔
      ∀ key ∈ keys, validateRules grammar allTerminals (grammar.get key) = .ok () := by
  induction keys with
  | nil => simp [validateKeys]
  | cons key rest ih =>
    simp only [validateKeys, List.mem_cons, forall_eq_or_imp]
    cases hr : validateRules grammar allTerminals (grammar.get key) with
    | error e => simp
    | ok u => simp [ih]

theorem validateKeys_error (grammar : GrammarRules) (allTerminals : List TokenDefinition)
    (keys : List String) (e : Panic)
    (h : validateKeys grammar allTerminals keys = .error e) :
    ∃ key ∈ keys, validateRules grammar allTerminals (grammar.get key) = .error e := by
  induction keys with
  | nil => simp [validateKeys] at h
  | cons key rest ih =>
    simp only [validateKeys] at h
    cases hr : validateRules grammar allTerminals (grammar.get key) with
    | error e' =>
      simp only [hr, Except.error.injEq] at h
      exact ⟨key, List.mem_cons_self _ _, by rw [← h]; exact hr⟩
    | ok u =>
      simp only [hr] at h
      obtain ⟨k, hmem, hrest⟩ := ih h
      exact ⟨k, List.mem_cons_of_mem _ hmem, hrest⟩

/-! ## The grammar loader: the claims -/

/-- What `loadGrammarFile` returns is the table and the first symbol of its reading
loop. -/
theorem loadGrammarFile_ok (text : String) (allTerminals : List TokenDefinition)
    (rangeOrder : GrammarRules → List String) (g : GrammarRules) (s : GrammarSymbol)
    (h : loadGrammarFile text allTerminals rangeOrder = .ok (g, s)) :
    g = (buildGrammar (bufio.Scan text) allTerminals).grammar ∧
    s = (buildGrammar (bufio.Scan text) allTerminals).firstSymbol ∧
    validateKeys (buildGrammar (bufio.Scan text) allTerminals).grammar allTerminals
      (rangeOrder (buildGrammar (bufio.Scan text) allTerminals).grammar) = .ok () := by
  simp only [loadGrammarFile] at h
  cases hv : validateKeys (buildGrammar (bufio.Scan text) allTerminals).grammar allTerminals
      (rangeOrder (buildGrammar (bufio.Scan text) allTerminals).grammar) with
  | error e => simp [hv] at h
  | ok u =>
    simp only [hv, Except.ok.injEq, Prod.mk.injEq] at h
    exact ⟨h.1.symm, h.2.symm, rfl⟩

theorem loadGrammarFile_error (text : String) (allTerminals : List TokenDefinition)
    (rangeOrder : GrammarRules → List String) (e : Panic)
    (h : loadGrammarFile text allTerminals rangeOrder = .error e) :
    validateKeys (buildGrammar (bufio.Scan text) allTerminals).grammar allTerminals
      (rangeOrder (buildGrammar (bufio.Scan text) allTerminals).grammar) = .error e := by
  simp only [loadGrammarFile] at h
  cases hv : validateKeys (buildGrammar (bufio.Scan text) allTerminals).grammar allTerminals
      (rangeOrder (buildGrammar (bufio.Scan text) allTerminals).grammar) with
  | error e' =>
    simp only [hv, Except.error.injEq] at h
    rw [h]
  | ok u => simp [hv] at h

/-- The message of the unknown-symbol panic determines the name it carries. -/
theorem unknownSymbol_message_injective (a b : String)
    (h : "Unknown symbol in grammar: " ++ a ++ "\n" = "Unknown symbol in grammar: " ++ b ++ "\n") :
    a = b := by
  have hdata := congrArg String.data h
  simp only [String.data_append] at hdata
  exact String.ext (List.append_cancel_left (List.append_cancel_right hdata))

/-- C7. Validation raises-iff: for every grammar text and terminal definition set,
whatever the order in which the keys of the table are visited, `loadGrammarFile`
fails with the error `Unknown symbol in grammar: <name>` if and only if some symbol
of some production of the built table has a name that is neither a key of the table
nor the name of a terminal definition; when it fails, the error is that message and
no other, and the name in it is the name of such an unresolved symbol; when it does
not fail, it returns the built table and every symbol of every production of that
table resolves. -/
theorem loadGrammarFile_unknown_symbol_iff (text : String)
    (allTerminals : List TokenDefinition) (rangeOrder : GrammarRules → List String)
    (hrange : (rangeOrder (buildGrammar (bufio.Scan text) allTerminals).grammar).Perm
      (buildGrammar (bufio.Scan text) allTerminals).grammar.keys) :
    ((∃ name, loadGrammarFile text allTerminals rangeOrder
        = .error (.logPanic ("Unknown symbol in grammar: " ++ name ++ "\n"))) ↔
      ∃ key rule symbol, key ∈ (buildGrammar (bufio.Scan text) allTerminals).grammar.keys ∧
        rule ∈ (buildGrammar (bufio.Scan text) allTerminals).grammar.get key ∧ symbol ∈ rule ∧
        symbol.Name ∉ (buildGrammar (bufio.Scan text) allTerminals).grammar.keys ∧
        ∀ d ∈ allTerminals, d.Name ≠ symbol.Name) ∧
    (∀ e, loadGrammarFile text allTerminals rangeOrder = .error e →
      ∃ key rule symbol, key ∈ (buildGrammar (bufio.Scan text) allTerminals).grammar.keys ∧
        rule ∈ (buildGrammar (bufio.Scan text) allTerminals).grammar.get key ∧ symbol ∈ rule ∧
        symbol.Name ∉ (buildGrammar (bufio.Scan text) allTerminals).grammar.keys ∧
        (∀ d ∈ allTerminals, d.Name ≠ symbol.Name) ∧
        e = .logPanic ("Unknown symbol in grammar: " ++ symbol.Name ++ "\n")) ∧
    (∀ name, loadGrammarFile text allTerminals rangeOrder
        = .error (.logPanic ("Unknown symbol in grammar: " ++ name ++ "\n")) →
      ∃ key rule symbol, key ∈ (buildGrammar (bufio.Scan text) allTerminals).grammar.keys ∧
        rule ∈ (buildGrammar (bufio.Scan text) allTerminals).grammar.get key ∧ symbol ∈ rule ∧
        symbol.Name = name ∧
        symbol.Name ∉ (buildGrammar (bufio.Scan text) allTerminals).grammar.keys ∧
        ∀ d ∈ allTerminals, d.Name ≠ symbol.Name) ∧
    (∀ g s, loadGrammarFile text allTerminals rangeOrder = .ok (g, s) →
      g = (buildGrammar (bufio.Scan text) allTerminals).grammar ∧
      ∀ key rule symbol, rule ∈ g.get key → symbol ∈ rule →
        symbol.Name ∈ g.keys ∨ ∃ d ∈ allTerminals, d.Name = symbol.Name) := by
  have herr : ∀ e, loadGrammarFile text allTerminals rangeOrder = .error e →
      ∃ key rule symbol, key ∈ (buildGrammar (bufio.Scan text) allTerminals).grammar.keys ∧
        rule ∈ (buildGrammar (bufio.Scan text) allTerminals).grammar.get key ∧ symbol ∈ rule ∧
        symbol.Name ∉ (buildGrammar (bufio.Scan text) allTerminals).grammar.keys ∧
        (∀ d ∈ allTerminals, d.Name ≠ symbol.Name) ∧
        e = .logPanic ("Unknown symbol in grammar: " ++ symbol.Name ++ "\n") := by
    intro e he
    obtain ⟨key, hkey, hrules⟩ := validateKeys_error _ _ _ _ (loadGrammarFile_error _ _ _ _ he)
    obtain ⟨rule, hrule, hsyms⟩ := validateRules_error _ _ _ _ hrules
    obtain ⟨symbol, hsym, h1, h2, h3⟩ := validateRule_error _ _ _ _ hsyms
    exact ⟨key, rule, symbol, hrange.mem_iff.mp hkey, hrule, hsym, h1, h2, h3⟩
  have hok : ∀ g s, loadGrammarFile text allTerminals rangeOrder = .ok (g, s) →
      g = (buildGrammar (bufio.Scan text) allTerminals).grammar ∧
      ∀ key rule symbol, rule ∈ g.get key → symbol ∈ rule →
        symbol.Name ∈ g.keys ∨ ∃ d ∈ allTerminals, d.Name = symbol.Name := by
    intro g s hgs
    obtain ⟨hg, _, hv⟩ := loadGrammarFile_ok _ _ _ _ _ hgs
    refine ⟨hg, ?_⟩
    intro key rule symbol hrule hsym
    rw [hg] at hrule ⊢
    have hkey := GrammarRules.mem_keys_of_mem_get _ _ _ hrule
    have h1 := (validateKeys_ok_iff _ _ _).mp hv key (hrange.mem_iff.mpr hkey)
    have h2 := (validateRules_ok_iff _ _ _).mp h1 rule hrule
    exact (validateRule_ok_iff _ _ _).mp h2 symbol hsym
  have hnamed : ∀ name, loadGrammarFile text allTerminals rangeOrder
        = .error (.logPanic ("Unknown symbol in grammar: " ++ name ++ "\n")) →
      ∃ key rule symbol, key ∈ (buildGrammar (bufio.Scan text) allTerminals).grammar.keys ∧
        rule ∈ (buildGrammar (bufio.Scan text) allTerminals).grammar.get key ∧ symbol ∈ rule ∧
        symbol.Name = name ∧
        symbol.Name ∉ (buildGrammar (bufio.Scan text) allTerminals).grammar.keys ∧
        ∀ d ∈ allTerminals, d.Name ≠ symbol.Name := by
    intro name hname
    obtain ⟨key, rule, symbol, h1, h2, h3, h4, h5, he⟩ := herr _ hname
    simp only [Panic.logPanic.injEq] at he
    exact ⟨key, rule, symbol, h1, h2, h3,
      (unknownSymbol_message_injective name symbol.Name he).symm, h4, h5⟩
  refine ⟨⟨?_, ?_⟩, herr, hnamed, hok⟩
  · rintro ⟨name, hname⟩
    obtain ⟨key, rule, symbol, h1, h2, h3, _, h4, h5⟩ := hnamed name hname
    exact ⟨key, rule, symbol, h1, h2, h3, h4, h5⟩
  · rintro ⟨key, rule, symbol, _, h2, h3, h4, h5⟩
    cases hl : loadGrammarFile text allTerminals rangeOrder with
    | error e =>
      obtain ⟨_, _, symbol', _, _, _, _, _, he⟩ := herr e hl
      exact ⟨symbol'.Name, by rw [he]⟩
    | ok r =>
      obtain ⟨g, s⟩ := r
      obtain ⟨hg, hres⟩ := hok g s hl
      rw [hg] at hres
      rcases hres key rule symbol h2 h3 with h | ⟨d, hd, hname⟩
      · exact absurd h h4
      · exact absurd hname (h5 d hd)

/-- C7, witness: scenario D. The text `Start / A FOO`, with the terminals `{A}`,
fails with the message `Unknown symbol in grammar: FOO`, and `FOO` is the name of a
symbol of the built table that does not resolve. -/
theorem loadGrammarFile_unknown_symbol_iff_witness :
    (GrammarRules.keys (buildGrammar (bufio.Scan textD) terminalsD).grammar).Perm
      (buildGrammar (bufio.Scan textD) terminalsD).grammar.keys ∧
    loadGrammarFile textD terminalsD GrammarRules.keys
      = .error (.logPanic "Unknown symbol in grammar: FOO\n") ∧
    ∃ key rule symbol, key ∈ (buildGrammar (bufio.Scan textD) terminalsD).grammar.keys ∧
      rule ∈ (buildGrammar (bufio.Scan textD) terminalsD).grammar.get key ∧ symbol ∈ rule ∧
      symbol.Name = "FOO" ∧
      symbol.Name ∉ (buildGrammar (bufio.Scan textD) terminalsD).grammar.keys ∧
      ∀ d ∈ terminalsD, d.Name ≠ symbol.Name :=
  ⟨List.Perm.refl _, rfl,
    (loadGrammarFile_unknown_symbol_iff textD terminalsD GrammarRules.keys
      (List.Perm.refl _)).2.2.1 "FOO" rfl⟩

/-! ### Invariants of the reading loop -/

/-- A property of productions that holds of every production line holds of every
production stored in the table, at every point of the reading loop. -/
theorem foldl_loadLine_rules (allTerminals : List TokenDefinition)
    (Q : List GrammarSymbol → Prop)
    (hQ : ∀ line : String, line ≠ "" → Q (newRule allTerminals (strings.Split line ' ')))
    (lines : List String) (st : LoadState)
    (hst : ∀ e ∈ st.grammar, ∀ rule ∈ e.2, Q rule) :
    ∀ e ∈ (lines.foldl (loadLine allTerminals) st).grammar, ∀ rule ∈ e.2, Q rule := by
  induction lines generalizing st with
  | nil => exact hst
  | cons text rest ih =>
    simp only [List.foldl_cons]
    apply ih
    intro e he rule hrule
    unfold loadLine at he
    simp only at he
    by_cases hblank : strings.TrimSpace text = ""
    · simp only [hblank, if_true] at he
      exact hst e he rule hrule
    · by_cases hcur : st.currentNonTerminal = ""
      · simp only [hblank, hcur, if_true, if_false] at he
        rcases GrammarRules.mem_set _ _ _ _ he with h | h
        · exact hst e h rule hrule
        · rw [h] at hrule
          simp at hrule
      · simp only [hblank, hcur, if_false] at he
        rcases GrammarRules.mem_set _ _ _ _ he with h | h
        · exact hst e h rule hrule
        · rw [h] at hrule
          simp only [List.mem_append, List.mem_singleton] at hrule
          rcases hrule with h' | h'
          · obtain ⟨e', he', _, hr'⟩ := GrammarRules.mem_get _ _ _ h'
            exact hst e' he' rule hr'
          · rw [h']
            exact hQ _ hblank

theorem buildGrammar_rules (allTerminals : List TokenDefinition)
    (Q : List GrammarSymbol → Prop)
    (hQ : ∀ line : String, line ≠ "" → Q (newRule allTerminals (strings.Split line ' ')))
    (lines : List String) (key : String) (rule : List GrammarSymbol)
    (h : rule ∈ (buildGrammar lines allTerminals).grammar.get key) : Q rule := by
  obtain ⟨e, he, _, hr⟩ := GrammarRules.mem_get _ _ _ h
  exact foldl_loadLine_rules allTerminals Q hQ lines _ (by simp) e he rule hr

theorem newRule_classified (allTerminals : List TokenDefinition) (names : List String) :
    ∀ symbol ∈ newRule allTerminals names,
      (symbol.IsTerminal = true ↔ ∃ d ∈ allTerminals, d.Name = symbol.Name) := by
  induction names with
  | nil => simp [newRule]
  | cons name rest ih =>
    intro symbol hsym
    simp only [newRule, List.mem_cons] at hsym
    rcases hsym with h | h
    · rw [h]
      exact stringIsTerminal_iff name allTerminals
    · exact ih symbol h

theorem newRule_names (allTerminals : List TokenDefinition) (names : List String) :
    (newRule allTerminals names).map GrammarSymbol.Name = names := by
  induction names with
  | nil => simp [newRule]
  | cons name rest ih => simp [newRule, ih]

/-- C10. Symbol classification: for every grammar text and terminal definition set,
every `GrammarSymbol` stored in a production of the table built by
`loadGrammarFile` has `IsTerminal = true` if and only if its `Name` is exactly
equal to the `Name` of some terminal definition in the set, whether or not that
name is also a key of the table; the table that `loadGrammarFile` returns for a
grammar text is the table built from the lines that its scanner yields. -/
theorem loadGrammarFile_symbol_classification (lines : List String)
    (allTerminals : List TokenDefinition) :
    (∀ key rule symbol, rule ∈ (buildGrammar lines allTerminals).grammar.get key →
      symbol ∈ rule →
      (symbol.IsTerminal = true ↔ ∃ d ∈ allTerminals, d.Name = symbol.Name)) ∧
    (∀ text rangeOrder g s, loadGrammarFile text allTerminals rangeOrder = .ok (g, s) →
      ∀ key rule symbol, rule ∈ g.get key → symbol ∈ rule →
        (symbol.IsTerminal = true ↔ ∃ d ∈ allTerminals, d.Name = symbol.Name)) := by
  have hbuilt : ∀ key rule symbol, rule ∈ (buildGrammar lines allTerminals).grammar.get key →
      symbol ∈ rule →
      (symbol.IsTerminal = true ↔ ∃ d ∈ allTerminals, d.Name = symbol.Name) := by
    intro key rule symbol hrule hsym
    exact buildGrammar_rules allTerminals
      (fun rule => ∀ symbol ∈ rule,
        (symbol.IsTerminal = true ↔ ∃ d ∈ allTerminals, d.Name = symbol.Name))
      (fun line _ => newRule_classified allTerminals _) lines key rule hrule symbol hsym
  refine ⟨hbuilt, ?_⟩
  intro text rangeOrder g s hload key rule symbol hrule hsym
  obtain ⟨hg, _, _⟩ := loadGrammarFile_ok _ _ _ _ _ hload
  rw [hg] at hrule
  exact buildGrammar_rules allTerminals
    (fun rule => ∀ symbol ∈ rule,
      (symbol.IsTerminal = true ↔ ∃ d ∈ allTerminals, d.Name = symbol.Name))
    (fun line _ => newRule_classified allTerminals _) (bufio.Scan text) key rule hrule
    symbol hsym

/-- C10, witness: in the table of `textTwoBlocks`, the production `A B` of the
key `A` holds the symbol `A`, flagged terminal although `A` is a key as well, and
the symbol `B`, flagged non-terminal. -/
theorem loadGrammarFile_symbol_classification_witness :
    loadGrammarFile textTwoBlocks terminalsTwoBlocks GrammarRules.keys
      = .ok (tableTwoBlocks, nonTerminal "A") ∧
    [terminal "A", nonTerminal "B"] ∈ tableTwoBlocks.get "A" ∧
    ((terminal "A").IsTerminal = true ↔
      ∃ d ∈ terminalsTwoBlocks, d.Name = (terminal "A").Name) ∧
    ((nonTerminal "B").IsTerminal = true ↔
      ∃ d ∈ terminalsTwoBlocks, d.Name = (nonTerminal "B").Name) :=
  ⟨rfl, by decide,
    (loadGrammarFile_symbol_classification linesTwoBlocks terminalsTwoBlocks).2
      textTwoBlocks GrammarRules.keys tableTwoBlocks (nonTerminal "A") rfl "A"
      [terminal "A", nonTerminal "B"] (terminal "A") (by decide) (by decide),
    (loadGrammarFile_symbol_classification linesTwoBlocks terminalsTwoBlocks).2
      textTwoBlocks GrammarRules.keys tableTwoBlocks (nonTerminal "A") rfl "A"
      [terminal "A", nonTerminal "B"] (nonTerminal "B") (by decide) (by decide)⟩

/-! ### The start symbol -/

theorem loadLine_firstSymbol_fixed (allTerminals : List TokenDefinition) (st : LoadState)
    (text : String) (h : st.firstSymbol.Name ≠ "") :
    (loadLine allTerminals st text).firstSymbol = st.firstSymbol := by
  unfold loadLine
  simp only
  split
  · rfl
  · split
    · simp [h]
    · rfl

theorem foldl_loadLine_firstSymbol_fixed (allTerminals : List TokenDefinition)
    (lines : List String) (st : LoadState) (h : st.firstSymbol.Name ≠ "") :
    (lines.foldl (loadLine allTerminals) st).firstSymbol = st.firstSymbol := by
  induction lines generalizing st with
  | nil => rfl
  | cons text rest ih =>
    simp only [List.foldl_cons]
    have hfix := loadLine_firstSymbol_fixed allTerminals st text h
    rw [ih _ (by rw [hfix]; exact h), hfix]

theorem foldl_loadLine_firstSymbol (allTerminals : List TokenDefinition)
    (lines : List String) (st : LoadState) (l : String)
    (hname : st.firstSymbol.Name = "") (hcur : st.currentNonTerminal = "")
    (hfirst : (lines.map strings.TrimSpace).find? (fun line => line ≠ "") = some l) :
    (lines.foldl (loadLine allTerminals) st).firstSymbol = { Name := l, IsTerminal := false } := by
  induction lines generalizing st with
  | nil => simp at hfirst
  | cons text rest ih =>
    simp only [List.foldl_cons]
    simp only [List.map_cons, List.find?_cons] at hfirst
    by_cases hblank : strings.TrimSpace text = ""
    · simp only [hblank, ne_eq, not_true_eq_false, decide_False] at hfirst
      apply ih _ _ _ hfirst
      · simp [loadLine, hblank, hname]
      · simp [loadLine, hblank]
    · simp only [hblank, ne_eq, not_false_eq_true, decide_True, Option.some.injEq] at hfirst
      have hstep : (loadLine allTerminals st text).firstSymbol
          = { Name := l, IsTerminal := false } := by
        have hl : ¬ l = "" := by rw [← hfirst]; exact hblank
        simp [loadLine, hcur, hname, hfirst, hl]
      rw [foldl_loadLine_firstSymbol_fixed allTerminals rest _ (by
        rw [hstep]; simp only; rw [← hfirst]; exact hblank), hstep]

/-- The start symbol that `loadGrammarFile` returns bears the first non-blank
trimmed line among the lines that the scanner yields, and is a non-terminal. -/
theorem loadGrammarFile_start_symbol_of_scanned (text : String)
    (allTerminals : List TokenDefinition) (rangeOrder : GrammarRules → List String)
    (l : String) (g : GrammarRules) (s : GrammarSymbol)
    (hfirst : ((bufio.Scan text).map strings.TrimSpace).find? (fun line => line ≠ "") = some l)
    (hload : loadGrammarFile text allTerminals rangeOrder = .ok (g, s)) :
    s.Name = l ∧ s.IsTerminal = false := by
  obtain ⟨_, hs, _⟩ := loadGrammarFile_ok _ _ _ _ _ hload
  have h := foldl_loadLine_firstSymbol allTerminals (bufio.Scan text)
    { grammar := [], firstSymbol := { Name := "", IsTerminal := false },
      currentNonTerminal := "" } l rfl rfl hfirst
  have hs' : s = { Name := l, IsTerminal := false } := by
    rw [hs]; exact h
  rw [hs']
  exact ⟨rfl, rfl⟩

/-! ### The table and the blocks of the text -/

/-- The reading loop, started in the middle of a text, binds what the blocks of the
remaining lines say. `run` is the block being read (empty between two blocks) and
`gbase` the table before that block. -/
theorem foldl_loadLine_blocks (allTerminals : List TokenDefinition) (lines : List String)
    (st : LoadState) (run : List String) (gbase : GrammarRules)
    (hrun : (run = [] ∧ st.currentNonTerminal = "") ∨
      (∃ h ps, run = h :: ps ∧ st.currentNonTerminal = h ∧ h ≠ ""))
    (hg : st.grammar = specAddBlock allTerminals gbase run) :
    (lines.foldl (loadLine allTerminals) st).grammar =
      (specBlocksAux (lines.map strings.TrimSpace) run).foldl (specAddBlock allTerminals)
        gbase := by
  induction lines generalizing st run gbase with
  | nil =>
    rcases hrun with ⟨hr, _⟩ | ⟨h, ps, hr, _, _⟩
    · rw [hr] at hg ⊢
      simp only [List.foldl_nil, List.map_nil, specBlocksAux]
      exact hg
    · rw [hr] at hg ⊢
      simp only [List.foldl_nil, List.map_nil, specBlocksAux, List.foldl_cons]
      exact hg
  | cons text rest ih =>
    simp only [List.foldl_cons, List.map_cons]
    by_cases hblank : strings.TrimSpace text = ""
    · have hstep : loadLine allTerminals st text = { st with currentNonTerminal := "" } := by
        simp [loadLine, hblank]
      rw [hstep]
      rcases hrun with ⟨hr, _⟩ | ⟨h, ps, hr, _, _⟩
      · rw [hr] at hg ⊢
        simp only [specBlocksAux, hblank, if_true]
        exact ih _ [] gbase (Or.inl ⟨rfl, rfl⟩) hg
      · rw [hr] at hg ⊢
        simp only [specBlocksAux, hblank, if_true, List.foldl_cons]
        exact ih _ [] _ (Or.inl ⟨rfl, rfl⟩) (by
          simp only [specAddBlock]
          exact hg)
    · rcases hrun with ⟨hr, hcur⟩ | ⟨h, ps, hr, hcur, hne⟩
      · rw [hr] at hg ⊢
        simp only [specBlocksAux, hblank, if_false, List.nil_append]
        apply ih _ [strings.TrimSpace text] gbase
        · exact Or.inr ⟨strings.TrimSpace text, [], rfl, by simp [loadLine, hblank, hcur],
            hblank⟩
        · simp only [specAddBlock] at hg
          simp [loadLine, hblank, hcur, specAddBlock, hg]
      · rw [hr] at hg ⊢
        simp only [specBlocksAux, hblank, if_false, List.cons_append]
        have hcur' : ¬ st.currentNonTerminal = "" := by rw [hcur]; exact hne
        apply ih _ (h :: (ps ++ [strings.TrimSpace text])) gbase
        · exact Or.inr ⟨h, ps ++ [strings.TrimSpace text], rfl,
            by simp [loadLine, hblank, hcur, hne], hne⟩
        · simp only [specAddBlock] at hg
          simp only [loadLine, hblank, if_false, specAddBlock, hcur, hne, hg,
            GrammarRules.get_set_self, GrammarRules.set_set, List.map_append, List.map_cons,
            List.map_nil, specProductionNames]

/-- The table that the reading loop builds is the one that the blocks of the text,
read in order, bind. -/
theorem buildGrammar_blocks (lines : List String) (allTerminals : List TokenDefinition) :
    (buildGrammar lines allTerminals).grammar =
      (specBlocks (lines.map strings.TrimSpace)).foldl (specAddBlock allTerminals) [] :=
  foldl_loadLine_blocks allTerminals lines _ [] [] (Or.inl ⟨rfl, rfl⟩) rfl

theorem GrammarRules.keys_append (g h : GrammarRules) :
    GrammarRules.keys (g ++ h) = GrammarRules.keys g ++ GrammarRules.keys h := by
  simp [GrammarRules.keys]

/-- Blocks with pairwise distinct, new headers are bound one after the other. -/
theorem foldl_specAddBlock_distinct (allTerminals : List TokenDefinition)
    (blocks : List (List String)) (g : GrammarRules)
    (hne : ∀ b ∈ blocks, b ≠ [])
    (hdistinct : (g.keys ++ blocks.map (fun b => b.headD "")).Nodup) :
    blocks.foldl (specAddBlock allTerminals) g =
      g ++ blocks.map (fun b =>
        (b.headD "", b.tail.map (fun line => newRule allTerminals (specProductionNames line)))) := by
  induction blocks generalizing g with
  | nil => simp
  | cons b rest ih =>
    cases b with
    | nil => exact absurd rfl (hne [] (List.mem_cons_self _ _))
    | cons header ps =>
      simp only [List.foldl_cons, specAddBlock, List.map_cons, List.headD_cons, List.tail_cons]
      simp only [List.map_cons, List.headD_cons] at hdistinct
      have hnew : header ∉ g.keys := by
        intro hc
        have := List.nodup_append.mp hdistinct
        exact this.2.2 hc (List.mem_cons_self _ _) 
      rw [GrammarRules.set_of_not_mem g header _ hnew]
      rw [ih _ (fun b hb => hne b (List.mem_cons_of_mem _ hb)) (by
        rw [GrammarRules.keys_append]
        simp only [GrammarRules.keys, List.map_cons, List.map_nil, List.append_assoc,
          List.singleton_append]
        exact hdistinct)]
      simp

theorem specBlocksAux_ne_nil (lines run : List String) :
    ∀ b ∈ specBlocksAux lines run, b ≠ [] := by
  induction lines generalizing run with
  | nil =>
    cases run with
    | nil => simp [specBlocksAux]
    | cons l run => simp [specBlocksAux]
  | cons line rest ih =>
    intro b hb
    simp only [specBlocksAux] at hb
    by_cases hblank : line = ""
    · simp only [hblank, if_true] at hb
      cases run with
      | nil => exact ih [] b hb
      | cons l run =>
        simp only [List.mem_cons] at hb
        rcases hb with h | h
        · rw [h]; simp
        · exact ih [] b h
    · simp only [hblank, if_false] at hb
      exact ih _ b hb

/-- The table that `loadGrammarFile` returns, when the blocks of the lines that the
scanner yields have pairwise distinct first lines: one key for each of these blocks,
its trimmed first line, bound to the remaining lines of the block, each split on
the space character into symbol names. -/
theorem loadGrammarFile_table_of_scanned_blocks (text : String)
    (allTerminals : List TokenDefinition) (rangeOrder : GrammarRules → List String)
    (g : GrammarRules) (s : GrammarSymbol)
    (hdistinct :
      ((specBlocks ((bufio.Scan text).map strings.TrimSpace)).map (fun b => b.headD "")).Nodup)
    (hload : loadGrammarFile text allTerminals rangeOrder = .ok (g, s)) :
    g.keys = (specBlocks ((bufio.Scan text).map strings.TrimSpace)).map (fun b => b.headD "") ∧
    ∀ header rest, header :: rest ∈ specBlocks ((bufio.Scan text).map strings.TrimSpace) →
      (g.get header).map (fun rule => rule.map GrammarSymbol.Name)
        = rest.map specProductionNames := by
  obtain ⟨hg, _, _⟩ := loadGrammarFile_ok _ _ _ _ _ hload
  have htable : g = (specBlocks ((bufio.Scan text).map strings.TrimSpace)).map (fun b =>
      (b.headD "",
        b.tail.map (fun line => newRule allTerminals (specProductionNames line)))) := by
    have hne : ∀ b ∈ specBlocks ((bufio.Scan text).map strings.TrimSpace), b ≠ [] :=
      specBlocksAux_ne_nil _ []
    rw [hg, buildGrammar_blocks,
      foldl_specAddBlock_distinct allTerminals (specBlocks ((bufio.Scan text).map strings.TrimSpace)) []
        hne (by simpa [GrammarRules.keys] using hdistinct)]
    simp
  have hkeys : g.keys = (specBlocks ((bufio.Scan text).map strings.TrimSpace)).map (fun b => b.headD "") := by
    rw [htable]
    simp [GrammarRules.keys, Function.comp_def]
  refine ⟨hkeys, ?_⟩
  intro header rest hmem
  have hentry : (header, rest.map (fun line => newRule allTerminals (specProductionNames line)))
      ∈ g := by
    rw [htable]
    exact List.mem_map.mpr ⟨header :: rest, hmem, rfl⟩
  rw [GrammarRules.get_of_mem g header _ (by rw [hkeys]; exact hdistinct) hentry]
  simp [List.map_map, Function.comp_def, newRule_names]

/-! ## The derivation engine: further claims -/

theorem Run.derived_eq_some (r : Run ParseResult) (node : TreeNode ParseNode) (j : Nat)
    (h : r.derived = some (node, j)) : r = .ret (some node, j) := by
  cases r with
  | outOfFuel => simp [Run.derived_outOfFuel] at h
  | panic p => simp [Run.derived_panic] at h
  | ret a =>
    obtain ⟨n, k⟩ := a
    cases n with
    | none => simp [Run.derived_ret_none] at h
    | some n' =>
      simp only [Run.derived_ret_some, Option.some.injEq, Prod.mk.injEq] at h
      rw [h.1, h.2]

/-- The children that `specDeriveAll` collects are, symbol by symbol, the results of
the child calls. -/
theorem specDeriveAll_forall₂ (child : GrammarSymbol → Nat → Option (TreeNode ParseNode × Nat))
    (rule : List GrammarSymbol) (i : Nat) (cs : List (TreeNode ParseNode)) (j : Nat)
    (h : specDeriveAll child rule i = some (cs, j)) :
    List.Forall₂ (fun s c => ∃ k k', child s k = some (c, k')) rule cs := by
  induction rule generalizing i cs j with
  | nil =>
    simp only [specDeriveAll, Option.some.injEq, Prod.mk.injEq] at h
    rw [← h.1]
    exact List.Forall₂.nil
  | cons s rest ih =>
    simp only [specDeriveAll] at h
    cases hc : child s i with
    | none => simp [hc] at h
    | some v =>
      obtain ⟨node, k⟩ := v
      simp only [hc] at h
      cases hd : specDeriveAll child rest k with
      | none => simp [hd] at h
      | some w =>
        obtain ⟨cs', j'⟩ := w
        simp only [hd, Option.some.injEq, Prod.mk.injEq] at h
        rw [← h.1]
        exact List.Forall₂.cons ⟨i, k, hc⟩ (ih k cs' j' hd)

/-- The indices along a production that derived: they never decrease, and they
increase over a production with at least one symbol when every child consumes a
token. -/
theorem specDeriveAll_progress (child : GrammarSymbol → Nat → Option (TreeNode ParseNode × Nat))
    (hchild : ∀ s k node j, child s k = some (node, j) → k < j)
    (rule : List GrammarSymbol) (i : Nat) (cs : List (TreeNode ParseNode)) (j : Nat)
    (h : specDeriveAll child rule i = some (cs, j)) :
    i ≤ j ∧ (rule ≠ [] → i < j) := by
  induction rule generalizing i cs j with
  | nil =>
    simp only [specDeriveAll, Option.some.injEq, Prod.mk.injEq] at h
    exact ⟨by omega, fun hc => absurd rfl hc⟩
  | cons s rest ih =>
    simp only [specDeriveAll] at h
    cases hc : child s i with
    | none => simp [hc] at h
    | some v =>
      obtain ⟨node, k⟩ := v
      simp only [hc] at h
      cases hd : specDeriveAll child rest k with
      | none => simp [hd] at h
      | some w =>
        obtain ⟨cs', j'⟩ := w
        simp only [hd, Option.some.injEq, Prod.mk.injEq] at h
        have h1 := hchild s i node k hc
        have h2 := (ih k cs' j' hd).1
        rw [← h.2]
        exact ⟨by omega, fun _ => by omega⟩

/-- Every node returned over a table without empty productions comes with an index
beyond the index of the call. -/
theorem naiveParseRecursive_consumes (fuel : Nat) (programTokens : List Token)
    (grammar : GrammarRules) (startSymbol : GrammarSymbol)
    (hne : ∀ key, ∀ rule ∈ grammar.get key, rule ≠ []) :
    ∀ (currentSymbol : GrammarSymbol) (i : Nat) (node : TreeNode ParseNode) (j : Nat),
      naiveParseRecursive fuel programTokens grammar currentSymbol startSymbol i
        = .ret (some node, j) → i < j := by
  induction fuel with
  | zero => intro s i node j h; simp [naiveParseRecursive] at h
  | succ fuel ih =>
    intro s i node j h
    have hi : i < programTokens.length := naiveParseRecursive_ret_in_range _ _ _ _ _ _ _ h
    rw [naiveParseRecursive_succ fuel _ _ _ _ _ hi] at h
    by_cases hs : s.IsTerminal = true
    · simp only [hs, if_true] at h
      split at h
      · cases h
      · simp only [Run.ret.injEq, Prod.mk.injEq, Option.some.injEq] at h
        omega
    · simp only [hs, if_false] at h
      obtain ⟨rule, hrule, cs, hd, _, _⟩ := parseRules_ret_some _ _ _ _ _ _ _ _ h
      exact (specDeriveAll_progress _
        (fun s' k node' j' hder => ih s' k node' j' (Run.derived_eq_some _ _ _ hder))
        rule i cs j hd).2 (hne s.Name rule hrule)

/-- C19. Progress: for every rule table in which every production has at least one
symbol, every token sequence, start symbol, symbol and index `i`, if
`naiveParseRecursive(symbol, i)` returns a node with index `j` then `j > i`: every
successful derivation consumes at least one token. -/
theorem naiveParseRecursive_progress (fuel : Nat) (programTokens : List Token)
    (grammar : GrammarRules) (currentSymbol startSymbol : GrammarSymbol) (i : Nat)
    (node : TreeNode ParseNode) (j : Nat)
    (hne : ∀ key, ∀ rule ∈ grammar.get key, rule ≠ [])
    (hi : i < programTokens.length)
    (h : naiveParseRecursive fuel programTokens grammar currentSymbol startSymbol i
      = .ret (some node, j)) :
    j > i ∧ 1 ≤ (terminalNodes node).length := by
  have hlt := naiveParseRecursive_consumes fuel programTokens grammar startSymbol hne
    currentSymbol i node j h
  obtain ⟨_, hj, hterm⟩ := naiveParseRecursive_spans fuel programTokens grammar startSymbol
    currentSymbol i node j h
  refine ⟨hlt, ?_⟩
  rw [hterm]
  simp only [tokenSlice, List.length_map, List.length_take, List.length_drop]
  omega

/-- C19, witness: scenario A. Every production of `grammarA` has three symbols, and
the derivation of `Start` from index 0 returns its tree with the index 3. -/
theorem naiveParseRecursive_progress_witness :
    (∀ key, ∀ rule ∈ grammarA.get key, rule ≠ []) ∧ 0 < tokensA.length ∧
    naiveParseRecursive 2 tokensA grammarA (nonTerminal "Start") (nonTerminal "Start") 0
      = .ret (some treeA, 3) ∧
    (3 > 0 ∧ 1 ≤ (terminalNodes treeA).length) :=
  have hne : ∀ key, ∀ rule ∈ grammarA.get key, rule ≠ [] := by
    intro key rule hrule
    simp only [grammarA, GrammarRules.get] at hrule
    split at hrule
    · simp only [List.mem_singleton] at hrule
      rw [hrule]
      simp
    · simp at hrule
  ⟨hne, by decide, rfl,
    naiveParseRecursive_progress 2 tokensA grammarA (nonTerminal "Start") (nonTerminal "Start")
      0 treeA 3 hne (by decide) rfl⟩

/-- C16. Failure leaves the position unchanged: for every rule table, token sequence,
start symbol, symbol (terminal or not) and index `i`, if `naiveParseRecursive(symbol,
i)` returns no node then the index it returns is `i`, however many tokens the
abandoned productions had matched. -/
theorem naiveParseRecursive_failure_keeps_index (fuel : Nat) (programTokens : List Token)
    (grammar : GrammarRules) (currentSymbol startSymbol : GrammarSymbol) (i j : Nat)
    (h : naiveParseRecursive fuel programTokens grammar currentSymbol startSymbol i
      = .ret (none, j)) :
    j = i := by
  have hi : i < programTokens.length := naiveParseRecursive_ret_in_range _ _ _ _ _ _ _ h
  cases fuel with
  | zero => simp [naiveParseRecursive] at h
  | succ fuel =>
    rw [naiveParseRecursive_succ fuel _ _ _ _ _ hi] at h
    by_cases hs : currentSymbol.IsTerminal = true
    · simp only [hs, if_true] at h
      split at h
      · simp only [Run.ret.injEq, Prod.mk.injEq, true_and] at h
        exact h.symm
      · simp at h
    · simp only [hs, if_false] at h
      exact parseRules_ret_none _ _ _ _ _ _ _ h

/-- C16, witness: on `S: A S B | A` with the tokens `A A B`, the call on `S` at index
1 matches the token at index 1 in both of its productions, abandons both, and
returns no node with the index 1. -/
theorem naiveParseRecursive_failure_keeps_index_witness :
    naiveParseRecursive 3 tokensAAB grammarNested (nonTerminal "S") (nonTerminal "S") 1
      = .ret (none, 1) ∧ 1 = 1 :=
  ⟨rfl, naiveParseRecursive_failure_keeps_index 3 tokensAAB grammarNested (nonTerminal "S")
    (nonTerminal "S") 1 1 rfl⟩

/-- C20. Left recursion diverges: for every rule table in which the first production
of a non-terminal `X` begins with the non-terminal `X` itself, every token sequence,
start symbol and in-range index `i`, `naiveParseRecursive(X, i)` never returns: it
re-enters itself on `(X, i)` without consuming a token, so no amount of fuel yields
a node, a no-match or a panic. -/
theorem naiveParseRecursive_left_recursion_diverges (programTokens : List Token)
    (grammar : GrammarRules) (X startSymbol : GrammarSymbol) (i : Nat)
    (tail : List GrammarSymbol) (others : List (List GrammarSymbol))
    (hX : X.IsTerminal = false) (hi : i < programTokens.length)
    (hfirst : grammar.get X.Name = (X :: tail) :: others) :
    ∀ fuel, naiveParseRecursive fuel programTokens grammar X startSymbol i = .outOfFuel := by
  intro fuel
  induction fuel with
  | zero => rfl
  | succ n ih =>
    rw [naiveParseRecursive_succ n _ _ _ _ _ hi]
    simp only [hX, Bool.false_eq_true, if_false, hfirst, parseRules, parseChildren, ih]

/-- C20, witness: `X: X A | A` on the single token `A`, at index 0. -/
theorem naiveParseRecursive_left_recursion_diverges_witness :
    (nonTerminal "X").IsTerminal = false ∧ 0 < tokensOneA.length ∧
    grammarLeftRec.get (nonTerminal "X").Name
      = (nonTerminal "X" :: [terminal "A"]) :: [[terminal "A"]] ∧
    ∀ fuel, naiveParseRecursive fuel tokensOneA grammarLeftRec (nonTerminal "X")
      (nonTerminal "S") 0 = .outOfFuel :=
  ⟨rfl, by decide, rfl,
    naiveParseRecursive_left_recursion_diverges tokensOneA grammarLeftRec (nonTerminal "X")
      (nonTerminal "S") 0 [terminal "A"] [[terminal "A"]] rfl (by decide) rfl⟩

/-- C12. Empty input always fails: for every rule table and start symbol, those
that `loadGrammarFile` produces among them, `naiveParse` on the empty token sequence
never returns a tree: with any fuel that lets it start, it stops at the read of
`tokens[0]`, the runtime panic of an index out of range. -/
theorem naiveParse_empty_input_fails (grammar : GrammarRules) (firstSymbol : GrammarSymbol) :
    (∀ fuel tree, naiveParse fuel [] grammar firstSymbol ≠ .ret tree) ∧
    (∀ fuel, naiveParse (fuel + 1) [] grammar firstSymbol = .panic (.indexOutOfRange 0 0)) ∧
    (∀ text allTerminals rangeOrder g s,
      loadGrammarFile text allTerminals rangeOrder = .ok (g, s) →
      ∀ fuel tree, naiveParse fuel [] g s ≠ .ret tree) := by
  have hpanic : ∀ (g : GrammarRules) (s : GrammarSymbol) (fuel : Nat),
      naiveParse (fuel + 1) [] g s = .panic (.indexOutOfRange 0 0) := by
    intro g s fuel
    simp only [naiveParse,
      naiveParseRecursive_out_of_range fuel [] g s s 0 (Nat.le_refl _), List.length_nil]
  have hnever : ∀ (g : GrammarRules) (s : GrammarSymbol) (fuel : Nat)
      (tree : TreeNode ParseNode), naiveParse fuel [] g s ≠ .ret tree :=
    fun g s => naiveParse_panic_never_ret 1 [] g s _ (hpanic g s 0)
  exact ⟨hnever grammar firstSymbol, hpanic grammar firstSymbol,
    fun _ _ _ g s _ => hnever g s⟩

/-- C12, witness: the table and the start symbol loaded from `textTwoBlocks` return
no tree on the empty token sequence. -/
theorem naiveParse_empty_input_fails_witness :
    loadGrammarFile textTwoBlocks terminalsTwoBlocks GrammarRules.keys
      = .ok (tableTwoBlocks, nonTerminal "A") ∧
    ∀ fuel tree, naiveParse fuel [] tableTwoBlocks (nonTerminal "A") ≠ .ret tree :=
  ⟨rfl, (naiveParse_empty_input_fails tableTwoBlocks (nonTerminal "A")).2.2
    textTwoBlocks terminalsTwoBlocks GrammarRules.keys tableTwoBlocks (nonTerminal "A") rfl⟩

/-- C14 (as amended). Scenario C: for the grammar in which `Start` has the two
alternatives `A` and `A B`, in that order, and the tokens `A B`, the derivation
succeeds. The first alternative derives and ends at index 1; it is refused because 1
is not the number of tokens; the loop goes on to the second alternative, and
`naiveParse` returns `Start(A, B)`. -/
theorem naiveParse_scenarioC_succeeds :
    (specDeriveAll
        (fun s k =>
          (naiveParseRecursive 1 tokensAB grammarC s (nonTerminal "Start") k).derived)
        [terminal "A"] 0 = some ([leaf "A" "a"], 1)) ∧
    (specQualifies
        (fun s k =>
          (naiveParseRecursive 1 tokensAB grammarC s (nonTerminal "Start") k).derived)
        tokensAB.length (nonTerminal "Start") (nonTerminal "Start") 0 [terminal "A"]
        = none) ∧
    (∀ fuel, naiveParseRecursive (fuel + 2) tokensAB grammarC (nonTerminal "Start")
      (nonTerminal "Start") 0 = .ret (some treeC, 2)) ∧
    (∀ fuel, naiveParse (fuel + 2) tokensAB grammarC (nonTerminal "Start") = .ret treeC) :=
  ⟨rfl, rfl,
    fun fuel => naiveParseRecursive_fuel_add 2 fuel _ _ _ _ _ _ (by simp) rfl,
    fun fuel => naiveParse_fuel_add 2 fuel _ _ _ _ (by simp) rfl⟩

/-- C14, counterexample. In scenario C `naiveParse` returns a tree: the derivation
does not fail, and the panic `Could not create parse tree` is not raised with any
fuel. -/
theorem naiveParse_scenarioC_counterexample :
    (∃ tree, naiveParse 2 tokensAB grammarC (nonTerminal "Start") = .ret tree) ∧
    (∀ fuel, naiveParse fuel tokensAB grammarC (nonTerminal "Start")
      ≠ .panic (.logPanic "Could not create parse tree\n")) := by
  refine ⟨⟨treeC, rfl⟩, ?_⟩
  intro fuel h
  exact naiveParse_panic_never_ret fuel _ _ _ _ h 2 treeC rfl

/-- A production that derives, after productions that were tried and failed, gives
the result, whatever productions follow it. -/
theorem parseRules_first_derives (call : GrammarSymbol → Nat → Run ParseResult)
    (programTokens : List Token) (X S : GrammarSymbol) (i : Nat)
    (pre : List (List GrammarSymbol)) (rule : List GrammarSymbol)
    (post : List (List GrammarSymbol)) (cs : List (TreeNode ParseNode)) (j : Nat)
    (hpre : ∀ q ∈ pre, childrenReturn call q i = true ∧
      specDeriveAll (fun s k => (call s k).derived) q i = none)
    (hrule : specDeriveAll (fun s k => (call s k).derived) rule i = some (cs, j))
    (hexact : ¬ (X.Name = S.Name ∧ j ≠ programTokens.length)) :
    parseRules call programTokens X S i (pre ++ rule :: post) =
      .ret (some (.mk { Name := X.Name, Value := X.Name, IsTerminal := false } cs), j) := by
  induction pre with
  | nil =>
    have hpc : parseChildren call rule [] i = .ret (true, cs, j) :=
      (parseChildren_true_iff call rule [] cs i j).mpr ⟨cs, hrule, by simp⟩
    rw [List.nil_append, parseRules_cons_ret _ _ _ _ _ _ _ _ _ _ hpc]
    simp [hexact]
  | cons q pre ih =>
    obtain ⟨hq1, hq2⟩ := hpre q (List.mem_cons_self _ _)
    obtain ⟨children, k, hpc⟩ := parseChildren_false_of_return call q [] i hq1 hq2
    rw [List.cons_append, parseRules_cons_ret _ _ _ _ _ _ _ _ _ _ hpc]
    simp only [Bool.false_eq_true, false_and, if_false]
    exact ih (fun q' hq' => hpre q' (List.mem_cons_of_mem _ hq'))

/-- C11. First-alternative commitment has no look-ahead. For a non-terminal `X` other
than the start symbol, at an in-range index `i`: once the earlier productions of `X`
have been tried and have failed and a production derives, the call returns the node
of that production, whatever the later productions are; they are not tried.
Concretely, with `S: X B` and `X: A | A A` on the tokens `A A B`, `naiveParse` ends
in `Could not create parse tree` and returns no tree with any fuel, although the tree
`S(X(A, A), B)` is well formed for the table and spells the tokens. -/
theorem naiveParse_first_alternative_commitment :
    (∀ (fuel : Nat) (programTokens : List Token) (grammar : GrammarRules)
        (X startSymbol : GrammarSymbol) (i : Nat) (pre : List (List GrammarSymbol))
        (rule : List GrammarSymbol) (post : List (List GrammarSymbol))
        (cs : List (TreeNode ParseNode)) (j : Nat),
      X.IsTerminal = false → X.Name ≠ startSymbol.Name → i < programTokens.length →
      grammar.get X.Name = pre ++ rule :: post →
      (∀ q ∈ pre,
        childrenReturn
          (fun s k => naiveParseRecursive fuel programTokens grammar s startSymbol k) q i
          = true ∧
        specDeriveAll
          (fun s k => (naiveParseRecursive fuel programTokens grammar s startSymbol k).derived)
          q i = none) →
      specDeriveAll
        (fun s k => (naiveParseRecursive fuel programTokens grammar s startSymbol k).derived)
        rule i = some (cs, j) →
      naiveParseRecursive (fuel + 1) programTokens grammar X startSymbol i =
        .ret (some (.mk { Name := X.Name, Value := X.Name, IsTerminal := false } cs), j)) ∧
    (∀ fuel, naiveParseRecursive (fuel + 2) tokensAAB grammarNoLookAhead (nonTerminal "X")
      (nonTerminal "S") 0 = .ret (some (inner "X" [leaf "A" "a1"]), 1)) ∧
    (∀ fuel, naiveParse (fuel + 3) tokensAAB grammarNoLookAhead (nonTerminal "S")
      = .panic (.logPanic "Could not create parse tree\n")) ∧
    (∀ fuel tree, naiveParse fuel tokensAAB grammarNoLookAhead (nonTerminal "S") ≠ .ret tree) ∧
    (wellFormed grammarNoLookAhead treeNoLookAhead = true ∧
      treeNoLookAhead.Value.Name = "S" ∧
      terminalNodes treeNoLookAhead = tokensAAB.map tokenNode) := by
  have hpanic : naiveParse 3 tokensAAB grammarNoLookAhead (nonTerminal "S")
      = .panic (.logPanic "Could not create parse tree\n") := rfl
  refine ⟨?_, ?_, ?_, ?_, ?_⟩
  · intro fuel programTokens grammar X startSymbol i pre rule post cs j hX hname hi hsplit
      hpre hrule
    rw [naiveParseRecursive_succ fuel _ _ _ _ _ hi]
    simp only [hX, Bool.false_eq_true, if_false, hsplit]
    exact parseRules_first_derives _ programTokens X startSymbol i pre rule post cs j hpre hrule
      (fun hc => hname hc.1)
  · intro fuel
    exact naiveParseRecursive_fuel_add 2 fuel _ _ _ _ _ _ (by simp) rfl
  · intro fuel
    exact naiveParse_fuel_add 3 fuel _ _ _ _ (by simp) hpanic
  · exact naiveParse_panic_never_ret 3 _ _ _ _ hpanic
  · exact ⟨by decide, rfl, by decide⟩

/-- C11, witness: with `X: A | A A` on the tokens `A A B`, the first production `A`
derives at index 0, and the call on `X` returns `X(A)` with the index 1; the
production `A A` that follows is not tried. -/
theorem naiveParse_first_alternative_commitment_witness :
    (nonTerminal "X").IsTerminal = false ∧
    (nonTerminal "X").Name ≠ (nonTerminal "S").Name ∧ 0 < tokensAAB.length ∧
    grammarNoLookAhead.get (nonTerminal "X").Name
      = [] ++ [terminal "A"] :: [[terminal "A", terminal "A"]] ∧
    specDeriveAll
      (fun s k =>
        (naiveParseRecursive 1 tokensAAB grammarNoLookAhead s (nonTerminal "S") k).derived)
      [terminal "A"] 0 = some ([leaf "A" "a1"], 1) ∧
    naiveParseRecursive 2 tokensAAB grammarNoLookAhead (nonTerminal "X") (nonTerminal "S") 0 =
      .ret (some (.mk { Name := (nonTerminal "X").Name, Value := (nonTerminal "X").Name,
                        IsTerminal := false } [leaf "A" "a1"]), 1) :=
  ⟨rfl, by decide, by decide, rfl, rfl,
    naiveParse_first_alternative_commitment.1 1 tokensAAB grammarNoLookAhead (nonTerminal "X")
      (nonTerminal "S") 0 [] [terminal "A"] [[terminal "A", terminal "A"]] [leaf "A" "a1"] 1
      rfl (by decide) (by decide) rfl (by simp) rfl⟩

/-- The node returned for a symbol bears the symbol's name. -/
theorem naiveParseRecursive_node_name (fuel : Nat) (programTokens : List Token)
    (grammar : GrammarRules) (currentSymbol startSymbol : GrammarSymbol) (i : Nat)
    (node : TreeNode ParseNode) (j : Nat)
    (h : naiveParseRecursive fuel programTokens grammar currentSymbol startSymbol i
      = .ret (some node, j)) :
    node.Value.Name = currentSymbol.Name := by
  have hi : i < programTokens.length := naiveParseRecursive_ret_in_range _ _ _ _ _ _ _ h
  cases fuel with
  | zero => simp [naiveParseRecursive] at h
  | succ fuel =>
    rw [naiveParseRecursive_succ fuel _ _ _ _ _ hi] at h
    by_cases hs : currentSymbol.IsTerminal = true
    · simp only [hs, if_true] at h
      split at h
      · cases h
      · rename_i hname
        simp only [ne_eq, not_not] at hname
        simp only [Run.ret.injEq, Prod.mk.injEq, Option.some.injEq] at h
        rw [← h.1, hname]
        rfl
    · simp only [hs, if_false] at h
      obtain ⟨_, _, _, _, hnode, _⟩ := parseRules_ret_some _ _ _ _ _ _ _ _ h
      rw [hnode]
      rfl

/-- Children that bear the names of the symbols of a production and are well formed
make the two lists that `wellFormed` compares. -/
theorem forall₂_children_wellFormed (g : GrammarRules)
    (R : GrammarSymbol → TreeNode ParseNode → Prop)
    (hR : ∀ s c, R s c → c.Value.Name = s.Name ∧ wellFormed g c = true)
    (rule : List GrammarSymbol) (cs : List (TreeNode ParseNode))
    (h : List.Forall₂ R rule cs) :
    rule.map GrammarSymbol.Name = cs.map (fun c => c.Value.Name) ∧
      wellFormedList g cs = true := by
  induction h with
  | nil => simp [wellFormedList]
  | cons hsc _ ih =>
    obtain ⟨h1, h2⟩ := hR _ _ hsc
    simp [wellFormedList, h1, h2, ih.1, ih.2]

/-- Every node returned over a table without empty productions is well formed for
that table. -/
theorem naiveParseRecursive_wellFormed (fuel : Nat) (programTokens : List Token)
    (grammar : GrammarRules) (startSymbol : GrammarSymbol)
    (hne : ∀ key, ∀ rule ∈ grammar.get key, rule ≠ []) :
    ∀ (currentSymbol : GrammarSymbol) (i : Nat) (node : TreeNode ParseNode) (j : Nat),
      naiveParseRecursive fuel programTokens grammar currentSymbol startSymbol i
        = .ret (some node, j) → wellFormed grammar node = true := by
  induction fuel with
  | zero => intro s i node j h; simp [naiveParseRecursive] at h
  | succ fuel ih =>
    intro s i node j h
    have hi : i < programTokens.length := naiveParseRecursive_ret_in_range _ _ _ _ _ _ _ h
    rw [naiveParseRecursive_succ fuel _ _ _ _ _ hi] at h
    by_cases hs : s.IsTerminal = true
    · simp only [hs, if_true] at h
      split at h
      · cases h
      · simp only [Run.ret.injEq, Prod.mk.injEq, Option.some.injEq] at h
        rw [← h.1]
        simp [wellFormed, tokenNode]
    · simp only [hs, if_false] at h
      obtain ⟨rule, hrule, cs, hd, hnode, _⟩ := parseRules_ret_some _ _ _ _ _ _ _ _ h
      have hall := specDeriveAll_forall₂ _ rule i cs j hd
      obtain ⟨hnames, hwf⟩ := forall₂_children_wellFormed grammar _
        (fun s' c hsc => by
          obtain ⟨k, k', hk⟩ := hsc
          have hret := Run.derived_eq_some _ _ _ hk
          exact ⟨naiveParseRecursive_node_name _ _ _ _ _ _ _ _ hret, ih s' k c k' hret⟩)
        rule cs hall
      have hcs : cs ≠ [] := by
        intro hc
        rw [hc] at hall
        cases hall
        exact hne s.Name [] hrule rfl
      rw [hnode]
      simp only [wellFormed, Bool.false_eq_true, if_false, decide_True, Bool.true_and,
        Bool.and_eq_true, Bool.not_eq_true', List.isEmpty_eq_false, List.any_eq_true,
        decide_eq_true_eq]
      exact ⟨⟨hcs, rule, hrule, hnames⟩, hwf⟩

/-! ## The grammar loader: further claims -/

theorem strings.splitChars_ne_nil (sep : Char) (l : List Char) :
    strings.splitChars sep l ≠ [] := by
  cases l with
  | nil => simp [strings.splitChars]
  | cons c cs =>
    simp only [strings.splitChars]
    split
    · simp
    · split <;> simp

theorem strings.Split_ne_nil (s : String) (sep : Char) : strings.Split s sep ≠ [] := by
  simp [strings.Split, strings.splitChars_ne_nil]

theorem newRule_ne_nil (allTerminals : List TokenDefinition) (names : List String)
    (h : names ≠ []) : newRule allTerminals names ≠ [] := by
  cases names with
  | nil => exact absurd rfl h
  | cons name rest => simp [newRule]

/-- No production stored by the reading loop is empty. -/
theorem buildGrammar_rules_ne_nil (lines : List String) (allTerminals : List TokenDefinition)
    (key : String) (rule : List GrammarSymbol)
    (h : rule ∈ (buildGrammar lines allTerminals).grammar.get key) : rule ≠ [] :=
  buildGrammar_rules allTerminals (fun rule => rule ≠ [])
    (fun line _ => newRule_ne_nil allTerminals _ (strings.Split_ne_nil line ' '))
    lines key rule h

/-- C18. No empty productions: for every grammar text and terminal set, every
production stored in the table built by `loadGrammarFile` contains at least one
symbol; a key may map to zero productions, but never to a production of length 0.
The table that `loadGrammarFile` returns for a grammar text is the table built from
the lines that its scanner yields. -/
theorem loadGrammarFile_no_empty_production (lines : List String)
    (allTerminals : List TokenDefinition) :
    (∀ key, ∀ rule ∈ (buildGrammar lines allTerminals).grammar.get key, 1 ≤ rule.length) ∧
    (∀ text rangeOrder g s, loadGrammarFile text allTerminals rangeOrder = .ok (g, s) →
      ∀ key, ∀ rule ∈ g.get key, 1 ≤ rule.length) := by
  have hbuilt : ∀ key, ∀ rule ∈ (buildGrammar lines allTerminals).grammar.get key,
      1 ≤ rule.length := by
    intro key rule hrule
    have := buildGrammar_rules_ne_nil lines allTerminals key rule hrule
    exact List.length_pos.mpr this
  refine ⟨hbuilt, ?_⟩
  intro text rangeOrder g s hload key rule hrule
  obtain ⟨hg, _, _⟩ := loadGrammarFile_ok _ _ _ _ _ hload
  rw [hg] at hrule
  exact List.length_pos.mpr
    (buildGrammar_rules_ne_nil (bufio.Scan text) allTerminals key rule hrule)

/-- C18, witness: in the table of `textTwoBlocks` the key `B` holds the production of
the line `A  A`, which has three symbols, the middle one with the empty name. -/
theorem loadGrammarFile_no_empty_production_witness :
    loadGrammarFile textTwoBlocks terminalsTwoBlocks GrammarRules.keys
      = .ok (tableTwoBlocks, nonTerminal "A") ∧
    [terminal "A", terminal "", terminal "A"] ∈ tableTwoBlocks.get "B" ∧
    1 ≤ [terminal "A", terminal "", terminal "A"].length :=
  ⟨rfl, by decide,
    (loadGrammarFile_no_empty_production linesTwoBlocks terminalsTwoBlocks).2
      textTwoBlocks GrammarRules.keys tableTwoBlocks (nonTerminal "A") rfl "B"
      [terminal "A", terminal "", terminal "A"] (by decide)⟩

/-- C13. Tree well-formedness: in every tree returned by `naiveParseRecursive` over a
table built by `loadGrammarFile`, each node is either a terminal node (`IsTerminal =
true`) with no children, or a non-terminal node (`IsTerminal = false`) with `Value`
equal to `Name` whose non-empty list of children has, in order, exactly the names of
the symbols of one production stored in the table under that node's `Name`; and the
root bears the name of the symbol that was derived. -/
theorem naiveParseRecursive_tree_well_formed (lines : List String)
    (allTerminals : List TokenDefinition) (fuel : Nat) (programTokens : List Token)
    (currentSymbol startSymbol : GrammarSymbol) (i : Nat) (node : TreeNode ParseNode) (j : Nat)
    (h : naiveParseRecursive fuel programTokens (buildGrammar lines allTerminals).grammar
      currentSymbol startSymbol i = .ret (some node, j)) :
    wellFormed (buildGrammar lines allTerminals).grammar node = true ∧
      node.Value.Name = currentSymbol.Name :=
  ⟨naiveParseRecursive_wellFormed fuel programTokens _ startSymbol
      (buildGrammar_rules_ne_nil lines allTerminals) currentSymbol i node j h,
    naiveParseRecursive_node_name _ _ _ _ _ _ _ _ h⟩

/-- C13, witness: scenario A, over the table loaded from its grammar text. -/
theorem naiveParseRecursive_tree_well_formed_witness :
    loadGrammarFile textA terminalsA GrammarRules.keys = .ok (grammarA, nonTerminal "Start") ∧
    bufio.Scan textA = linesA ∧
    naiveParseRecursive 2 tokensA (buildGrammar linesA terminalsA).grammar
      (nonTerminal "Start") (nonTerminal "Start") 0 = .ret (some treeA, 3) ∧
    (wellFormed (buildGrammar linesA terminalsA).grammar treeA = true ∧
      treeA.Value.Name = (nonTerminal "Start").Name) :=
  ⟨rfl, by decide, rfl,
    naiveParseRecursive_tree_well_formed linesA terminalsA 2 tokensA (nonTerminal "Start")
      (nonTerminal "Start") 0 treeA 3 rfl⟩

/-! ### Blocks that repeat a header -/

theorem GrammarRules.get_set_other (g : GrammarRules) (key other : String)
    (value : List (List GrammarSymbol)) (h : key ≠ other) :
    (g.set key value).get other = g.get other := by
  induction g with
  | nil => simp [GrammarRules.set, GrammarRules.get, h]
  | cons e rest ih =>
    obtain ⟨k, v⟩ := e
    by_cases hk : k = key
    · have hko : ¬ k = other := by rw [hk]; exact h
      simp [GrammarRules.set, GrammarRules.get, hk, h]
    · by_cases hko : k = other
      · subst hko
        simp [GrammarRules.set, GrammarRules.get, hk]
      · simp [GrammarRules.set, GrammarRules.get, hk, hko, ih]

/-- Blocks headed by other names leave the binding of a name as it is. -/
theorem foldl_specAddBlock_get_other (allTerminals : List TokenDefinition)
    (blocks : List (List String)) (g : GrammarRules) (header : String)
    (h : ∀ b ∈ blocks, b.head? ≠ some header) :
    (blocks.foldl (specAddBlock allTerminals) g).get header = g.get header := by
  induction blocks generalizing g with
  | nil => rfl
  | cons b rest ih =>
    simp only [List.foldl_cons]
    rw [ih _ (fun b' hb' => h b' (List.mem_cons_of_mem _ hb'))]
    cases b with
    | nil => rfl
    | cons k ps =>
      have hk : k ≠ header := by
        intro hc
        exact h (k :: ps) (List.mem_cons_self _ _) (by simp [hc])
      simp only [specAddBlock]
      exact GrammarRules.get_set_other g k header _ hk

/-- The first block starts with the run being read, when there is one. -/
theorem specBlocksAux_head_run (lines run : List String) (b : List String)
    (bs : List (List String)) (hrun : run ≠ [])
    (h : specBlocksAux lines run = b :: bs) : b.head? = run.head? := by
  induction lines generalizing run with
  | nil =>
    cases run with
    | nil => exact absurd rfl hrun
    | cons l r =>
      simp only [specBlocksAux, List.cons.injEq] at h
      rw [← h.1]
  | cons line rest ih =>
    simp only [specBlocksAux] at h
    by_cases hblank : line = ""
    · simp only [hblank, if_true] at h
      cases run with
      | nil => exact absurd rfl hrun
      | cons l r =>
        simp only [List.cons.injEq] at h
        rw [← h.1]
    · simp only [hblank, if_false] at h
      rw [ih (run ++ [line]) (by simp) h]
      cases run with
      | nil => exact absurd rfl hrun
      | cons l r => rfl

/-- The first block starts with the first non-blank line. -/
theorem specBlocks_head (lines : List String) (b : List String) (bs : List (List String))
    (h : specBlocks lines = b :: bs) :
    lines.find? (fun line => line ≠ "") = b.head? := by
  unfold specBlocks at h
  induction lines with
  | nil => simp [specBlocksAux] at h
  | cons line rest ih =>
    simp only [specBlocksAux] at h
    by_cases hblank : line = ""
    · simp only [hblank, if_true] at h
      simp only [List.find?_cons, hblank, ne_eq, not_true_eq_false, decide_False]
      exact ih h
    · simp only [hblank, if_false, List.nil_append] at h
      simp only [List.find?_cons, hblank, ne_eq, not_false_eq_true, decide_True]
      rw [specBlocksAux_head_run rest [line] b bs (by simp) h]
      rfl

/-- Blocks that repeat a header, among the lines that the scanner yields: the table
binds the header to the productions of the last of these blocks, and the start
symbol is the header of the first block. -/
theorem loadGrammarFile_duplicate_scanned_blocks (text : String)
    (allTerminals : List TokenDefinition) (rangeOrder : GrammarRules → List String)
    (g : GrammarRules) (s : GrammarSymbol)
    (pre : List (List String)) (header : String) (rest : List String)
    (post : List (List String))
    (hload : loadGrammarFile text allTerminals rangeOrder = .ok (g, s))
    (hsplit : specBlocks ((bufio.Scan text).map strings.TrimSpace) = pre ++ (header :: rest) :: post)
    (hlast : ∀ b ∈ post, b.head? ≠ some header) :
    g.get header = rest.map (fun line => newRule allTerminals (specProductionNames line)) ∧
    (g.get header).map (fun rule => rule.map GrammarSymbol.Name)
      = rest.map specProductionNames ∧
    ∀ first others, specBlocks ((bufio.Scan text).map strings.TrimSpace) = first :: others →
      s = { Name := first.headD "", IsTerminal := false } := by
  obtain ⟨hg, hs, _⟩ := loadGrammarFile_ok _ _ _ _ _ hload
  have hget : g.get header
      = rest.map (fun line => newRule allTerminals (specProductionNames line)) := by
    rw [hg, buildGrammar_blocks, hsplit, List.foldl_append, List.foldl_cons,
      foldl_specAddBlock_get_other allTerminals post _ header hlast]
    simp only [specAddBlock]
    exact GrammarRules.get_set_self _ _ _
  refine ⟨hget, ?_, ?_⟩
  · rw [hget]
    simp [List.map_map, Function.comp_def, newRule_names]
  · intro first others hfirst
    have hne : first ≠ [] := by
      have := specBlocksAux_ne_nil ((bufio.Scan text).map strings.TrimSpace) [] first
      apply this
      have hmem : first ∈ specBlocks ((bufio.Scan text).map strings.TrimSpace) := by
        rw [hfirst]; exact List.mem_cons_self _ _
      exact hmem
    cases first with
    | nil => exact absurd rfl hne
    | cons l ls =>
      have hfind := specBlocks_head _ _ _ hfirst
      rw [hs]
      exact foldl_loadLine_firstSymbol allTerminals (bufio.Scan text) _ l rfl rfl hfind

/-! ### Trimming -/

theorem dropWhile_eq_self {α : Type} (p : α → Bool) (l : List α)
    (h : ∀ x, l.head? = some x → p x = false) : l.dropWhile p = l := by
  cases l with
  | nil => rfl
  | cons x xs => simp [List.dropWhile, h x rfl]

theorem head?_dropWhile_false {α : Type} (p : α → Bool) (l : List α) (x : α)
    (h : (l.dropWhile p).head? = some x) : p x = false := by
  induction l with
  | nil => simp at h
  | cons y ys ih =>
    by_cases hy : p y = true
    · simp only [List.dropWhile, hy] at h
      exact ih h
    · simp only [Bool.not_eq_true] at hy
      simp only [List.dropWhile, hy, List.head?_cons, Option.some.injEq] at h
      rw [← h]
      exact hy

theorem dropWhile_eq_nil_of_all {α : Type} (p : α → Bool) (l : List α)
    (h : ∀ x ∈ l, p x = true) : l.dropWhile p = [] := by
  induction l with
  | nil => rfl
  | cons y ys ih =>
    simp only [List.dropWhile, h y (List.mem_cons_self _ _)]
    exact ih (fun x hx => h x (List.mem_cons_of_mem _ hx))

/-- Dropping at both ends what satisfies `p` leaves nothing more to drop. -/
theorem trim_idempotent {α : Type} (p : α → Bool) (l : List α) :
    (((((l.dropWhile p).reverse.dropWhile p).reverse).dropWhile p).reverse.dropWhile p).reverse
      = ((l.dropWhile p).reverse.dropWhile p).reverse := by
  have hsuffix : ((l.dropWhile p).reverse.dropWhile p) <:+ (l.dropWhile p).reverse :=
    List.dropWhile_suffix p
  obtain ⟨pre, hpre⟩ := hsuffix
  have hfront : (((l.dropWhile p).reverse.dropWhile p).reverse).dropWhile p
      = ((l.dropWhile p).reverse.dropWhile p).reverse := by
    apply dropWhile_eq_self
    intro x hx
    have ha : l.dropWhile p
        = ((l.dropWhile p).reverse.dropWhile p).reverse ++ pre.reverse := by
      have := congrArg List.reverse hpre
      simp only [List.reverse_append, List.reverse_reverse] at this
      exact this.symm
    apply head?_dropWhile_false p l x
    rw [ha]
    cases hb : ((l.dropWhile p).reverse.dropWhile p).reverse with
    | nil => rw [hb] at hx; simp at hx
    | cons y ys =>
      rw [hb] at hx
      simp only [List.head?_cons, Option.some.injEq] at hx
      simp [hx]
  rw [hfront, List.reverse_reverse]
  congr 1
  apply dropWhile_eq_self
  intro x hx
  exact head?_dropWhile_false p _ x hx

theorem strings.TrimSpace_idempotent (s : String) :
    strings.TrimSpace (strings.TrimSpace s) = strings.TrimSpace s := by
  simp only [strings.TrimSpace]
  rw [trim_idempotent]

theorem strings.TrimSpace_of_all_space (s : String)
    (h : ∀ c ∈ s.data, unicode.IsSpace c = true) : strings.TrimSpace s = "" := by
  simp only [strings.TrimSpace]
  rw [dropWhile_eq_nil_of_all _ _ h]
  rfl

theorem loadLine_trim (allTerminals : List TokenDefinition) (st : LoadState) (text : String) :
    loadLine allTerminals st (strings.TrimSpace text) = loadLine allTerminals st text := by
  simp only [loadLine, strings.TrimSpace_idempotent]

theorem foldl_loadLine_trim (allTerminals : List TokenDefinition) (lines : List String)
    (st : LoadState) :
    (lines.map strings.TrimSpace).foldl (loadLine allTerminals) st
      = lines.foldl (loadLine allTerminals) st := by
  induction lines generalizing st with
  | nil => rfl
  | cons text rest ih =>
    simp only [List.map_cons, List.foldl_cons, loadLine_trim]
    exact ih _

/-- The reading loop depends on the trimmed lines only. -/
theorem buildGrammar_trim (lines : List String) (allTerminals : List TokenDefinition) :
    buildGrammar (lines.map strings.TrimSpace) allTerminals = buildGrammar lines allTerminals := by
  simp only [buildGrammar, foldl_loadLine_trim]

/-- Two grammar texts for which the scanner yields lines that are equal after
trimming have the same outcome of `loadGrammarFile`. -/
theorem loadGrammarFile_of_scanned_trim (text text' : String)
    (allTerminals : List TokenDefinition) (rangeOrder : GrammarRules → List String)
    (h : (bufio.Scan text).map strings.TrimSpace = (bufio.Scan text').map strings.TrimSpace) :
    loadGrammarFile text allTerminals rangeOrder
      = loadGrammarFile text' allTerminals rangeOrder := by
  have hb : buildGrammar (bufio.Scan text) allTerminals
      = buildGrammar (bufio.Scan text') allTerminals := by
    rw [← buildGrammar_trim (bufio.Scan text), ← buildGrammar_trim (bufio.Scan text'), h]
  simp only [loadGrammarFile, hb]

/-! ## The scanner -/

theorem bufio.utf8Len_space : bufio.utf8Len ' ' = 1 := by decide

theorem replicate_append_cons {α : Type} (k : Nat) (a : α) (l : List α) :
    List.replicate k a ++ a :: l = List.replicate (k + 1) a ++ l := by
  induction k with
  | zero => rfl
  | succ k ih =>
    rw [List.replicate_succ, List.cons_append, ih]
    rfl

/-- Reading a run of spaces: the scanner keeps them as pending data. -/
theorem bufio.scanFrom_replicate_space (k : Nat) (rest pending : List Char) (size : Nat) :
    bufio.scanFrom (List.replicate k ' ' ++ rest) pending size =
      bufio.scanFrom rest (List.replicate k ' ' ++ pending) (size + k) := by
  induction k generalizing pending size with
  | zero => rfl
  | succ k ih =>
    rw [List.replicate_succ, List.cons_append]
    have hstep : bufio.scanFrom (' ' :: (List.replicate k ' ' ++ rest)) pending size
        = bufio.scanFrom (List.replicate k ' ' ++ rest) (' ' :: pending)
            (size + bufio.utf8Len ' ') := by
      simp [bufio.scanFrom]
    rw [hstep, ih, bufio.utf8Len_space, replicate_append_cons, List.replicate_succ]
    congr 1
    omega

theorem specLinesFrom_replicate_space (k : Nat) (rest pending : List Char) :
    specLinesFrom (List.replicate k ' ' ++ rest) pending =
      specLinesFrom rest (List.replicate k ' ' ++ pending) := by
  induction k generalizing pending with
  | zero => rfl
  | succ k ih =>
    rw [List.replicate_succ, List.cons_append]
    have hstep : specLinesFrom (' ' :: (List.replicate k ' ' ++ rest)) pending
        = specLinesFrom (List.replicate k ' ' ++ rest) (' ' :: pending) := by
      simp [specLinesFrom]
    rw [hstep, ih, replicate_append_cons, List.replicate_succ]

theorem bufio.lineToken_replicate_space (k : Nat) :
    bufio.lineToken (List.replicate k ' ') = String.mk (List.replicate k ' ') := by
  cases k with
  | zero => rfl
  | succ k =>
    rw [List.replicate_succ]
    have h : bufio.lineToken (' ' :: List.replicate k ' ')
        = String.mk (' ' :: List.replicate k ' ').reverse := by
      simp [bufio.lineToken]
    rw [h, ← List.replicate_succ, List.reverse_replicate]

/-- The scanner at a line of `n` spaces: the line is yielded when it has fewer than
`MaxScanTokenSize` bytes; otherwise nothing is yielded from there on, whatever
follows the line. -/
theorem bufio.scanFrom_blankLine (n : Nat) (rest : List Char) :
    bufio.scanFrom (blankLine n ++ '\n' :: rest) [] 0 =
      if bufio.MaxScanTokenSize ≤ n then []
      else String.mk (blankLine n) :: bufio.scanFrom rest [] 0 := by
  unfold blankLine
  rw [bufio.scanFrom_replicate_space]
  simp only [bufio.scanFrom, if_true, List.append_nil, Nat.zero_add]
  rw [bufio.lineToken_replicate_space]

/-- The line of `n` spaces is a line of the text, whatever `n`. -/
theorem specLinesFrom_blankLine (n : Nat) (rest : List Char) :
    specLinesFrom (blankLine n ++ '\n' :: rest) [] =
      String.mk (blankLine n) :: specLinesFrom rest [] := by
  unfold blankLine
  rw [specLinesFrom_replicate_space]
  simp only [specLinesFrom, if_true, List.append_nil]
  rw [bufio.lineToken_replicate_space]

theorem blankLine_all_space (n : Nat) : ∀ c ∈ blankLine n, unicode.IsSpace c = true := by
  intro c hc
  unfold blankLine at hc
  rw [List.eq_of_mem_replicate hc]
  decide

theorem strings.TrimSpace_blankLine (n : Nat) :
    strings.TrimSpace (String.mk (blankLine n)) = "" :=
  strings.TrimSpace_of_all_space _ (blankLine_all_space n)

/-- The scanner on `textTwoBlocks`: the carriage return before a line feed is
dropped, and the last line needs no line feed. -/
theorem bufio.Scan_textTwoBlocks : bufio.Scan textTwoBlocks = linesTwoBlocks := by decide

/-- When no line of the text fills the buffer, the scanner yields the lines of the
text. -/
theorem bufio.scanFrom_eq_specLinesFrom (chars pending : List Char) (size : Nat)
    (h : bufio.tooLongFrom chars size = false) :
    bufio.scanFrom chars pending size = specLinesFrom chars pending := by
  induction chars generalizing pending size with
  | nil =>
    simp only [bufio.tooLongFrom, decide_eq_false_iff_not] at h
    simp [bufio.scanFrom, specLinesFrom, h]
  | cons c rest ih =>
    simp only [bufio.tooLongFrom] at h
    by_cases hc : c = '\n'
    · simp only [hc, if_true, Bool.or_eq_false_iff, decide_eq_false_iff_not] at h
      simp only [bufio.scanFrom, specLinesFrom, hc, if_true, h.1, if_false]
      rw [ih [] 0 h.2]
    · simp only [hc, if_false] at h
      simp only [bufio.scanFrom, specLinesFrom, hc, if_false]
      exact ih _ _ h

theorem bufio.Scan_eq_specTextLines (text : String) (h : bufio.tooLong text = false) :
    bufio.Scan text = specTextLines text :=
  bufio.scanFrom_eq_specLinesFrom text.data [] 0 h

/-- What `loadGrammarFile` does once the trimmed lines that the scanner yields are
known. -/
theorem loadGrammarFile_of_scan (text : String) (lines trimmed : List String)
    (allTerminals : List TokenDefinition) (rangeOrder : GrammarRules → List String)
    (h : bufio.Scan text = lines) (htrim : lines.map strings.TrimSpace = trimmed) :
    loadGrammarFile text allTerminals rangeOrder =
      match validateKeys (buildGrammar trimmed allTerminals).grammar allTerminals
          (rangeOrder (buildGrammar trimmed allTerminals).grammar) with
      | .error e => .error e
      | .ok _ => .ok ((buildGrammar trimmed allTerminals).grammar,
          (buildGrammar trimmed allTerminals).firstSymbol) := by
  unfold loadGrammarFile
  rw [h, ← htrim, buildGrammar_trim]

/-- The scanner on a text that starts with the lines `S` and `A` and goes on with a
line of `n` spaces. -/
theorem bufio.scanFrom_S_A_blankLine (n : Nat) (rest : List Char) :
    bufio.scanFrom ("S\nA\n".data ++ (blankLine n ++ '\n' :: rest)) [] 0 =
      "S" :: "A" ::
        (if bufio.MaxScanTokenSize ≤ n then []
         else String.mk (blankLine n) :: bufio.scanFrom rest [] 0) := by
  have hpre : "S\nA\n".data = ['S', '\n', 'A', '\n'] := rfl
  have h4 : ∀ X, bufio.scanFrom ('S' :: '\n' :: 'A' :: '\n' :: X) [] 0
      = "S" :: "A" :: bufio.scanFrom X [] 0 := fun _ => rfl
  rw [hpre]
  simp only [List.cons_append, List.nil_append]
  rw [h4, bufio.scanFrom_blankLine]

/-- The lines of such a text: the line of spaces and what follows it are lines of
the text, whatever `n`. -/
theorem specLinesFrom_S_A_blankLine (n : Nat) (rest : List Char) :
    specLinesFrom ("S\nA\n".data ++ (blankLine n ++ '\n' :: rest)) [] =
      "S" :: "A" :: String.mk (blankLine n) :: specLinesFrom rest [] := by
  have hpre : "S\nA\n".data = ['S', '\n', 'A', '\n'] := rfl
  have h4 : ∀ X, specLinesFrom ('S' :: '\n' :: 'A' :: '\n' :: X) []
      = "S" :: "A" :: specLinesFrom X [] := fun _ => rfl
  rw [hpre]
  simp only [List.cons_append, List.nil_append]
  rw [h4, specLinesFrom_blankLine]

/-! ## The grammar loader on a text with a line of 64 KiB -/

/-- C8. The code on a text with a line of 64 KiB. `textTwoBlocksBlankLine n` has the
two blocks `S / A` and `T / A`, with distinct first lines, separated by a line of `n`
spaces. With 65536 spaces the scanner yields `S` and `A` and stops at the long line:
`loadGrammarFile` passes validation and returns a table with the single key `S`, and
the block `T / A` has no key. With 65535 spaces the scanner yields the five lines and
the returned table has the keys `S` and `T`. -/
theorem loadGrammarFile_long_line_table :
    specTextBlocks (textTwoBlocksBlankLine 65536) = [["S", "A"], ["T", "A"]] ∧
    ((specTextBlocks (textTwoBlocksBlankLine 65536)).map (fun b => b.headD "")).Nodup ∧
    bufio.Scan (textTwoBlocksBlankLine 65536) = ["S", "A"] ∧
    loadGrammarFile (textTwoBlocksBlankLine 65536) terminalsD GrammarRules.keys
      = .ok ([("S", [[terminal "A"]])], nonTerminal "S") ∧
    GrammarRules.keys [("S", [[terminal "A"]])]
      ≠ (specTextBlocks (textTwoBlocksBlankLine 65536)).map (fun b => b.headD "") ∧
    bufio.Scan (textTwoBlocksBlankLine 65535)
      = ["S", "A", String.mk (blankLine 65535), "T", "A"] ∧
    loadGrammarFile (textTwoBlocksBlankLine 65535) terminalsD GrammarRules.keys
      = .ok ([("S", [[terminal "A"]]), ("T", [[terminal "A"]])], nonTerminal "S") := by
  have hscan : bufio.Scan (textTwoBlocksBlankLine 65536) = ["S", "A"] := by
    have h := bufio.scanFrom_S_A_blankLine 65536 "T\nA\n".data
    rw [if_pos (by decide)] at h
    exact h
  have hscan' : bufio.Scan (textTwoBlocksBlankLine 65535)
      = ["S", "A", String.mk (blankLine 65535), "T", "A"] := by
    have h := bufio.scanFrom_S_A_blankLine 65535 "T\nA\n".data
    rw [if_neg (by decide)] at h
    exact h
  have hlines : specTextLines (textTwoBlocksBlankLine 65536)
      = ["S", "A", String.mk (blankLine 65536), "T", "A"] :=
    specLinesFrom_S_A_blankLine 65536 "T\nA\n".data
  have hblocks : specTextBlocks (textTwoBlocksBlankLine 65536) = [["S", "A"], ["T", "A"]] := by
    unfold specTextBlocks
    rw [hlines]
    simp only [List.map, strings.TrimSpace_blankLine]
    decide
  refine ⟨hblocks, ?_, hscan, ?_, ?_, hscan', ?_⟩
  · rw [hblocks]; decide
  · rw [loadGrammarFile_of_scan _ _ ["S", "A"] _ _ hscan (by decide)]
    rfl
  · rw [hblocks]; decide
  · rw [loadGrammarFile_of_scan _ _ ["S", "A", "", "T", "A"] _ _ hscan' (by
      simp only [List.map, strings.TrimSpace_blankLine]
      decide)]
    rfl

/-- C9. The code on a text whose first line has 64 KiB. `textFirstBlankLine n` starts
with a line of `n` spaces, and its first non-blank line is `S`. With 65536 spaces the
scanner yields nothing: `loadGrammarFile` passes validation and returns the empty
table with the start symbol of the empty name, not the start symbol `S`. With 65535
spaces it returns the start symbol `S`. -/
theorem loadGrammarFile_long_line_start_symbol :
    ((specTextLines (textFirstBlankLine 65536)).map strings.TrimSpace).find?
      (fun line => line ≠ "") = some "S" ∧
    bufio.Scan (textFirstBlankLine 65536) = [] ∧
    loadGrammarFile (textFirstBlankLine 65536) terminalsD GrammarRules.keys
      = .ok ([], { Name := "", IsTerminal := false }) ∧
    bufio.Scan (textFirstBlankLine 65535) = [String.mk (blankLine 65535), "S", "A"] ∧
    loadGrammarFile (textFirstBlankLine 65535) terminalsD GrammarRules.keys
      = .ok ([("S", [[terminal "A"]])], { Name := "S", IsTerminal := false }) := by
  have hscan : bufio.Scan (textFirstBlankLine 65536) = [] := by
    have h := bufio.scanFrom_blankLine 65536 "S\nA\n".data
    rw [if_pos (by decide)] at h
    exact h
  have hscan' : bufio.Scan (textFirstBlankLine 65535)
      = [String.mk (blankLine 65535), "S", "A"] := by
    have h := bufio.scanFrom_blankLine 65535 "S\nA\n".data
    rw [if_neg (by decide)] at h
    exact h
  have hlines : specTextLines (textFirstBlankLine 65536)
      = [String.mk (blankLine 65536), "S", "A"] :=
    specLinesFrom_blankLine 65536 "S\nA\n".data
  refine ⟨?_, hscan, ?_, hscan', ?_⟩
  · rw [hlines]
    simp only [List.map, strings.TrimSpace_blankLine]
    decide
  · rw [loadGrammarFile_of_scan _ _ [] _ _ hscan rfl]
    rfl
  · rw [loadGrammarFile_of_scan _ _ ["", "S", "A"] _ _ hscan' (by
      simp only [List.map, strings.TrimSpace_blankLine]
      decide)]
    rfl

/-- C15. The code on a text with a line of 64 KiB between two blocks of one header.
`textDuplicateBlankLine n` has the blocks `S / A` and `S / B`, separated by a line of
`n` spaces. With 65536 spaces the scanner stops at the long line: `loadGrammarFile`
passes validation and returns a table that binds `S` to the production `A` of the
first block, not to the production `B` of the last one. With 65535 spaces the table
binds `S` to the production `B`. -/
theorem loadGrammarFile_long_line_duplicate :
    specTextBlocks (textDuplicateBlankLine 65536) = [["S", "A"], ["S", "B"]] ∧
    bufio.Scan (textDuplicateBlankLine 65536) = ["S", "A"] ∧
    loadGrammarFile (textDuplicateBlankLine 65536) terminalsAB GrammarRules.keys
      = .ok ([("S", [[terminal "A"]])], nonTerminal "S") ∧
    GrammarRules.get [("S", [[terminal "A"]])] "S"
      ≠ ["B"].map (fun line => newRule terminalsAB (specProductionNames line)) ∧
    loadGrammarFile (textDuplicateBlankLine 65535) terminalsAB GrammarRules.keys
      = .ok ([("S", [[terminal "B"]])], nonTerminal "S") := by
  have hscan : bufio.Scan (textDuplicateBlankLine 65536) = ["S", "A"] := by
    have h := bufio.scanFrom_S_A_blankLine 65536 "S\nB\n".data
    rw [if_pos (by decide)] at h
    exact h
  have hscan' : bufio.Scan (textDuplicateBlankLine 65535)
      = ["S", "A", String.mk (blankLine 65535), "S", "B"] := by
    have h := bufio.scanFrom_S_A_blankLine 65535 "S\nB\n".data
    rw [if_neg (by decide)] at h
    exact h
  have hlines : specTextLines (textDuplicateBlankLine 65536)
      = ["S", "A", String.mk (blankLine 65536), "S", "B"] :=
    specLinesFrom_S_A_blankLine 65536 "S\nB\n".data
  refine ⟨?_, hscan, ?_, by decide, ?_⟩
  · unfold specTextBlocks
    rw [hlines]
    simp only [List.map, strings.TrimSpace_blankLine]
    decide
  · rw [loadGrammarFile_of_scan _ _ ["S", "A"] _ _ hscan (by decide)]
    rfl
  · rw [loadGrammarFile_of_scan _ _ ["S", "A", "", "S", "B"] _ _ hscan' (by
      simp only [List.map, strings.TrimSpace_blankLine]
      decide)]
    rfl

/-- C17. The code on a text with a white-space-only line of 64 KiB.
`textUnknownBlankLine n` has the lines `S`, `A`, a line of `n` spaces, `T` and `FOO`;
`textEmptiedLineUnknown` is the same text with that line emptied. With 65536 spaces
the scanner stops at the long line and `loadGrammarFile` returns the table of the
block `S / A`, while on the text with the line emptied it fails with `Unknown symbol
in grammar: FOO`. With 65535 spaces it fails in the same way as on the text with the
line emptied. -/
theorem loadGrammarFile_long_line_whitespace :
    specTextLines (textUnknownBlankLine 65536)
      = ["S", "A", String.mk (blankLine 65536), "T", "FOO"] ∧
    (∀ c ∈ (String.mk (blankLine 65536)).data, unicode.IsSpace c = true) ∧
    specTextLines textEmptiedLineUnknown = ["S", "A", "", "T", "FOO"] ∧
    loadGrammarFile (textUnknownBlankLine 65536) terminalsD GrammarRules.keys
      = .ok ([("S", [[terminal "A"]])], nonTerminal "S") ∧
    loadGrammarFile textEmptiedLineUnknown terminalsD GrammarRules.keys
      = .error (.logPanic "Unknown symbol in grammar: FOO\n") ∧
    loadGrammarFile (textUnknownBlankLine 65535) terminalsD GrammarRules.keys
      = .error (.logPanic "Unknown symbol in grammar: FOO\n") := by
  have hscan : bufio.Scan (textUnknownBlankLine 65536) = ["S", "A"] := by
    have h := bufio.scanFrom_S_A_blankLine 65536 "T\nFOO\n".data
    rw [if_pos (by decide)] at h
    exact h
  have hscan' : bufio.Scan (textUnknownBlankLine 65535)
      = ["S", "A", String.mk (blankLine 65535), "T", "FOO"] := by
    have h := bufio.scanFrom_S_A_blankLine 65535 "T\nFOO\n".data
    rw [if_neg (by decide)] at h
    exact h
  refine ⟨specLinesFrom_S_A_blankLine 65536 "T\nFOO\n".data, blankLine_all_space 65536,
    by decide, ?_, rfl, ?_⟩
  · rw [loadGrammarFile_of_scan _ _ ["S", "A"] _ _ hscan (by decide)]
    rfl
  · rw [loadGrammarFile_of_scan _ _ ["S", "A", "", "T", "FOO"] _ _ hscan' (by
      simp only [List.map, strings.TrimSpace_blankLine]
      decide)]
    rfl

/-! ## The grammar loader on a text without a line of 64 KiB -/

/-- Rule-table construction, for a grammar text none of whose lines fills the buffer
of the scanner: with pairwise distinct first lines of the blocks of the text, the
returned table has one key for each block, its trimmed first line, bound to the
remaining lines of the block split on the space character. -/
theorem loadGrammarFile_table_of_blocks_short_lines (text : String)
    (allTerminals : List TokenDefinition) (rangeOrder : GrammarRules → List String)
    (g : GrammarRules) (s : GrammarSymbol)
    (hshort : bufio.tooLong text = false)
    (hdistinct : ((specTextBlocks text).map (fun b => b.headD "")).Nodup)
    (hload : loadGrammarFile text allTerminals rangeOrder = .ok (g, s)) :
    g.keys = (specTextBlocks text).map (fun b => b.headD "") ∧
    ∀ header rest, header :: rest ∈ specTextBlocks text →
      (g.get header).map (fun rule => rule.map GrammarSymbol.Name)
        = rest.map specProductionNames := by
  have hscan := bufio.Scan_eq_specTextLines text hshort
  unfold specTextBlocks at hdistinct ⊢
  rw [← hscan] at hdistinct ⊢
  exact loadGrammarFile_table_of_scanned_blocks text allTerminals rangeOrder g s hdistinct hload

/-- Start symbol, for a grammar text none of whose lines fills the buffer of the
scanner: the name of the returned start symbol is the trimmed first non-blank line
of the text. -/
theorem loadGrammarFile_start_symbol_short_lines (text : String)
    (allTerminals : List TokenDefinition) (rangeOrder : GrammarRules → List String)
    (l : String) (g : GrammarRules) (s : GrammarSymbol)
    (hshort : bufio.tooLong text = false)
    (hfirst : ((specTextLines text).map strings.TrimSpace).find? (fun line => line ≠ "")
      = some l)
    (hload : loadGrammarFile text allTerminals rangeOrder = .ok (g, s)) :
    s.Name = l ∧ s.IsTerminal = false := by
  rw [← bufio.Scan_eq_specTextLines text hshort] at hfirst
  exact loadGrammarFile_start_symbol_of_scanned text allTerminals rangeOrder l g s hfirst hload

/-- Duplicate blocks, for a grammar text none of whose lines fills the buffer of the
scanner: the table binds a header to the productions of the last block that it
heads. -/
theorem loadGrammarFile_duplicate_blocks_short_lines (text : String)
    (allTerminals : List TokenDefinition) (rangeOrder : GrammarRules → List String)
    (g : GrammarRules) (s : GrammarSymbol)
    (pre : List (List String)) (header : String) (rest : List String)
    (post : List (List String))
    (hshort : bufio.tooLong text = false)
    (hload : loadGrammarFile text allTerminals rangeOrder = .ok (g, s))
    (hsplit : specTextBlocks text = pre ++ (header :: rest) :: post)
    (hlast : ∀ b ∈ post, b.head? ≠ some header) :
    g.get header = rest.map (fun line => newRule allTerminals (specProductionNames line)) := by
  unfold specTextBlocks at hsplit
  rw [← bufio.Scan_eq_specTextLines text hshort] at hsplit
  exact (loadGrammarFile_duplicate_scanned_blocks text allTerminals rangeOrder g s pre header
    rest post hload hsplit hlast).1

/-- White space, for two grammar texts none of whose lines fills the buffer of the
scanner: when their lines are equal after trimming, `loadGrammarFile` has the same
outcome on both. -/
theorem loadGrammarFile_whitespace_short_lines (text text' : String)
    (allTerminals : List TokenDefinition) (rangeOrder : GrammarRules → List String)
    (hshort : bufio.tooLong text = false) (hshort' : bufio.tooLong text' = false)
    (h : (specTextLines text).map strings.TrimSpace
      = (specTextLines text').map strings.TrimSpace) :
    loadGrammarFile text allTerminals rangeOrder
      = loadGrammarFile text' allTerminals rangeOrder := by
  rw [← bufio.Scan_eq_specTextLines text hshort,
    ← bufio.Scan_eq_specTextLines text' hshort'] at h
  exact loadGrammarFile_of_scanned_trim text text' allTerminals rangeOrder h

/-! ## The whole program: what `Parse` hands to the engine -/

theorem loadLine_firstSymbol_nonTerminal (allTerminals : List TokenDefinition)
    (st : LoadState) (text : String) (h : st.firstSymbol.IsTerminal = false) :
    (loadLine allTerminals st text).firstSymbol.IsTerminal = false := by
  unfold loadLine
  simp only
  split
  · exact h
  · split
    · split
      · rfl
      · exact h
    · exact h

/-- The first symbol of the reading loop is never flagged as a terminal. -/
theorem buildGrammar_firstSymbol_nonTerminal (lines : List String)
    (allTerminals : List TokenDefinition) :
    (buildGrammar lines allTerminals).firstSymbol.IsTerminal = false := by
  have hfold : ∀ (ls : List String) (st : LoadState), st.firstSymbol.IsTerminal = false →
      (ls.foldl (loadLine allTerminals) st).firstSymbol.IsTerminal = false := by
    intro ls
    induction ls with
    | nil => intro st h; exact h
    | cons l rest ih =>
      intro st h
      exact ih _ (loadLine_firstSymbol_nonTerminal allTerminals st l h)
  exact hfold lines _ rfl

/-- Every start symbol that `loadGrammarFile` returns is a non-terminal. -/
theorem loadGrammarFile_start_nonTerminal (text : String)
    (allTerminals : List TokenDefinition) (rangeOrder : GrammarRules → List String)
    (g : GrammarRules) (s : GrammarSymbol)
    (h : loadGrammarFile text allTerminals rangeOrder = .ok (g, s)) :
    s.IsTerminal = false := by
  obtain ⟨_, hs, _⟩ := loadGrammarFile_ok _ _ _ _ _ h
  rw [hs]
  exact buildGrammar_firstSymbol_nonTerminal _ _

/-- A tree that `Parse` returns is the tree that `naiveParse` returns for the table
and the start symbol that `loadGrammarFile` returned. -/
theorem Parse_ret (fuel : Nat) (terminals : List TokenDefinition) (programTokens : List Token)
    (grammarText : String) (rangeOrder : GrammarRules → List String)
    (tree : TreeNode ParseNode)
    (h : Parse fuel terminals programTokens grammarText rangeOrder = .ret tree) :
    ∃ g s, loadGrammarFile grammarText terminals rangeOrder = .ok (g, s) ∧
      naiveParse fuel programTokens g s = .ret tree := by
  unfold Parse at h
  cases hl : loadGrammarFile grammarText terminals rangeOrder with
  | error e => simp [hl] at h
  | ok r =>
    obtain ⟨g, s⟩ := r
    simp only [hl] at h
    exact ⟨g, s, rfl, h⟩

/-- C3. Exact consumption: for every rule table, token sequence and start symbol
that `naiveParse` is given, whenever the derivation of the start symbol from index 0
(`naiveParse`) returns a tree, the index returned with it equals `len(tokens)`.
The start symbol that `naiveParse` is given is the one that `loadGrammarFile`
returned, always a non-terminal; the property holds for every rule table, loaded or
not, with such a start symbol, and so for every grammar text, terminal set and token
sequence handed to `Parse`. -/
theorem naiveParse_exact_consumption (fuel : Nat) (programTokens : List Token) :
    (∀ (grammar : GrammarRules) (firstSymbol : GrammarSymbol) (tree : TreeNode ParseNode),
      firstSymbol.IsTerminal = false →
      naiveParse fuel programTokens grammar firstSymbol = .ret tree →
      naiveParseRecursive fuel programTokens grammar firstSymbol firstSymbol 0
        = .ret (some tree, programTokens.length)) ∧
    (∀ (grammarText : String) (terminals : List TokenDefinition)
        (rangeOrder : GrammarRules → List String) (g : GrammarRules) (s : GrammarSymbol),
      loadGrammarFile grammarText terminals rangeOrder = .ok (g, s) → s.IsTerminal = false) ∧
    (∀ (terminals : List TokenDefinition) (grammarText : String)
        (rangeOrder : GrammarRules → List String) (tree : TreeNode ParseNode),
      Parse fuel terminals programTokens grammarText rangeOrder = .ret tree →
      ∃ g s, loadGrammarFile grammarText terminals rangeOrder = .ok (g, s) ∧
        naiveParse fuel programTokens g s = .ret tree ∧
        naiveParseRecursive fuel programTokens g s s 0
          = .ret (some tree, programTokens.length)) := by
  have hexact : ∀ (grammar : GrammarRules) (firstSymbol : GrammarSymbol)
      (tree : TreeNode ParseNode), firstSymbol.IsTerminal = false →
      naiveParse fuel programTokens grammar firstSymbol = .ret tree →
      naiveParseRecursive fuel programTokens grammar firstSymbol firstSymbol 0
        = .ret (some tree, programTokens.length) := by
    intro grammar firstSymbol tree hfirst h
    obtain ⟨j, hj⟩ := naiveParse_ret _ _ _ _ _ h
    have hlen := naiveParseRecursive_start_name_exact _ _ _ _ _ _ _ _ hfirst rfl hj
    rw [hj, hlen]
  refine ⟨hexact, fun text terms order g s h =>
    loadGrammarFile_start_nonTerminal text terms order g s h, ?_⟩
  intro terminals grammarText rangeOrder tree h
  obtain ⟨g, s, hload, hparse⟩ := Parse_ret _ _ _ _ _ _ h
  exact ⟨g, s, hload, hparse,
    hexact g s tree (loadGrammarFile_start_nonTerminal _ _ _ _ _ hload) hparse⟩

/-- C3, witness: scenario A through `Parse`. The grammar text loads the table
`grammarA` and the start symbol `Start`, and the tree comes with the index 3, the
number of tokens. -/
theorem naiveParse_exact_consumption_witness :
    Parse 2 terminalsA tokensA textA GrammarRules.keys = .ret treeA ∧
    (∃ g s, loadGrammarFile textA terminalsA GrammarRules.keys = .ok (g, s) ∧
      naiveParse 2 tokensA g s = .ret treeA ∧
      naiveParseRecursive 2 tokensA g s s 0 = .ret (some treeA, tokensA.length)) ∧
    ((nonTerminal "Start").IsTerminal = false ∧
      naiveParse 2 tokensA grammarA (nonTerminal "Start") = .ret treeA ∧
      naiveParseRecursive 2 tokensA grammarA (nonTerminal "Start") (nonTerminal "Start") 0
        = .ret (some treeA, tokensA.length)) :=
  ⟨rfl,
    (naiveParse_exact_consumption 2 tokensA).2.2 terminalsA textA GrammarRules.keys treeA rfl,
    rfl, rfl,
    (naiveParse_exact_consumption 2 tokensA).1 grammarA (nonTerminal "Start") treeA rfl rfl⟩

/-- C4. The tree witnesses the token stream: for every rule table, token sequence,
start symbol, symbol and index `i`, if `naiveParseRecursive` returns a node with
index `j` then `i <= j <= len(tokens)` and the terminal nodes of that node's subtree,
read left to right, are exactly `tokens[i..j)`: the `k`-th terminal node has the name
and the value of `tokens[i+k]`. Hence the terminal leaves of any tree returned by
`naiveParse` for a start symbol it is given (a non-terminal, as `loadGrammarFile`
always returns), and so of any tree returned by `Parse`, spell the whole token
sequence in order. -/
theorem naiveParseRecursive_tree_witnesses_tokens (fuel : Nat) (programTokens : List Token) :
    (∀ (grammar : GrammarRules) (currentSymbol startSymbol : GrammarSymbol) (i : Nat)
        (node : TreeNode ParseNode) (j : Nat),
      naiveParseRecursive fuel programTokens grammar currentSymbol startSymbol i
        = .ret (some node, j) →
      i ≤ j ∧ j ≤ programTokens.length ∧
      terminalNodes node = tokenSlice programTokens i j ∧
      ∀ k, k < j - i → (terminalNodes node)[k]? = (programTokens[i + k]?).map tokenNode) ∧
    (∀ (grammar : GrammarRules) (startSymbol : GrammarSymbol) (tree : TreeNode ParseNode),
      startSymbol.IsTerminal = false →
      naiveParse fuel programTokens grammar startSymbol = .ret tree →
      terminalNodes tree = programTokens.map tokenNode) ∧
    (∀ (terminals : List TokenDefinition) (grammarText : String)
        (rangeOrder : GrammarRules → List String) (tree : TreeNode ParseNode),
      Parse fuel terminals programTokens grammarText rangeOrder = .ret tree →
      terminalNodes tree = programTokens.map tokenNode) := by
  have hspell : ∀ (grammar : GrammarRules) (startSymbol : GrammarSymbol)
      (tree : TreeNode ParseNode), startSymbol.IsTerminal = false →
      naiveParse fuel programTokens grammar startSymbol = .ret tree →
      terminalNodes tree = programTokens.map tokenNode := by
    intro grammar startSymbol tree hfirst h
    obtain ⟨j, hj⟩ := naiveParse_ret _ _ _ _ _ h
    have hlen := naiveParseRecursive_start_name_exact _ _ _ _ _ _ _ _ hfirst rfl hj
    obtain ⟨_, _, h3⟩ := naiveParseRecursive_spans fuel programTokens grammar startSymbol
      startSymbol 0 tree j hj
    rw [h3, hlen]
    exact tokenSlice_all programTokens
  refine ⟨?_, hspell, ?_⟩
  · intro grammar s startSymbol i node j h
    obtain ⟨h1, h2, h3⟩ := naiveParseRecursive_spans fuel programTokens grammar startSymbol
      s i node j h
    refine ⟨h1, h2, h3, ?_⟩
    intro k hk
    rw [h3]
    exact tokenSlice_getElem? programTokens i j k hk
  · intro terminals grammarText rangeOrder tree h
    obtain ⟨g, s, hload, hparse⟩ := Parse_ret _ _ _ _ _ _ h
    exact hspell g s tree (loadGrammarFile_start_nonTerminal _ _ _ _ _ hload) hparse

/-- C4, witness: in scenario A the nested call on `PLUS` at index 1 returns a leaf
that spells `tokens[1..2)`, and the tree that `Parse` returns spells the three
tokens. -/
theorem naiveParseRecursive_tree_witnesses_tokens_witness :
    (naiveParseRecursive 2 tokensA grammarA (terminal "PLUS") (nonTerminal "Start") 1
        = .ret (some (leaf "PLUS" "+"), 2) ∧
      1 ≤ 2 ∧ 2 ≤ tokensA.length ∧
      terminalNodes (leaf "PLUS" "+") = tokenSlice tokensA 1 2 ∧
      ∀ k, k < 2 - 1 → (terminalNodes (leaf "PLUS" "+"))[k]? = (tokensA[1 + k]?).map tokenNode) ∧
    (Parse 2 terminalsA tokensA textA GrammarRules.keys = .ret treeA ∧
      terminalNodes treeA = tokensA.map tokenNode) :=
  ⟨⟨rfl, (naiveParseRecursive_tree_witnesses_tokens 2 tokensA).1 grammarA (terminal "PLUS")
      (nonTerminal "Start") 1 (leaf "PLUS" "+") 2 rfl⟩,
    ⟨rfl, (naiveParseRecursive_tree_witnesses_tokens 2 tokensA).2.2 terminalsA textA
      GrammarRules.keys treeA rfl⟩⟩

end Gpc
